import Mathlib

/-!
Verification of the catalog hierarchy store of the repository.

The repository ships a declarative Prisma schema (`src/prisma/schema.prisma`),
its generated SQL migration, and framework scaffolding; the nested-set
Interval Allocator, Hierarchy Store, and Cache Coordinator described by the
specification have no executable implementation under `src/`.  The
definitions below therefore embed, on the one hand, the schema's `Category`
row shape and uniqueness/index constraints exactly as declared, and, on the
other hand, the tree and cache operations modelled faithfully from the
specification's own algorithmic descriptions (marked `Modelled from the
spec:`).  An abstract forest with a canonical pre-order interval numbering
serves as the specification-side model against which the row-level
operations are proved correct.
-/

namespace Catalog

/-- Typed errors of the hierarchy store, after the spec's error taxonomy
(DuplicateNameError, NotFoundError, CycleError, NotEmptyError,
CrossTenantError). -/
inductive Err where
  | duplicateName
  | notFound
  | cycle
  | notEmpty
  | crossTenant
deriving DecidableEq, Repr

/-- Deletion policy for categories with children (spec section 4.1):
CASCADE removes the whole subtree, PROMOTE reparents direct children. -/
inductive Policy where
  | cascade
  | promote
deriving DecidableEq, Repr

/-- One `Category` row, after the Prisma model `Category`
(src/prisma/schema.prisma lines 115-138): `category_id`, `name`, nullable
self-referencing `parent_category_id`, and the nested-set bounds `nleft`,
`nright`.  The tenant identifier (`activity_id`) is carried by the
surrounding per-tenant table; `brand_id` and the timestamps play no role in
the tree logic. -/
structure Cat where
  category_id : Nat
  name : String
  parent_category_id : Option Nat
  nleft : Nat
  nright : Nat
deriving DecidableEq, Repr

/-- Look up a row by `category_id` (first match in row order). -/
def findCat (s : List Cat) (xid : Nat) : Option Cat :=
  s.find? (fun c => c.category_id == xid)

/-- Modelled from the spec: the `+2` bound shift of `insert` (spec section
4.1): add 2 to every `nleft` that is `>= parent.nright` and to every
`nright` that is `>= parent.nright`. -/
def shiftIns (pr : Nat) (c : Cat) : Cat :=
  { c with nleft := if pr ≤ c.nleft then c.nleft + 2 else c.nleft,
           nright := if pr ≤ c.nright then c.nright + 2 else c.nright }

/-- Largest `nright` occurring in a tenant's rows (0 when empty); the end of
the tenant's numbering space, used to place a new root. -/
def maxNright (s : List Cat) : Nat :=
  s.foldr (fun c m => max c.nright m) 0

/-- Modelled from the spec: the Interval Allocator's
`insert(parent_id, position)` with the append-as-last-child policy (spec
section 4.1); the repository contains no executable allocator.  A null
parent inserts a new root at the end of the tenant's forest; otherwise the
new node gets `nleft = parent.nright`, `nright = parent.nright + 1` and
every pre-existing bound `>= parent.nright` moves up by 2.  The result list
is kept in ascending `nleft` (pre-)order. -/
def allocInsert (s : List Cat) (newId : Nat) (nm : String) (parent : Option Nat) :
    Except Err (List Cat) :=
  match parent with
  | none =>
      let m := maxNright s
      .ok (s ++ [⟨newId, nm, none, m + 1, m + 2⟩])
  | some pid =>
      match findCat s pid with
      | none => .error .notFound
      | some p =>
          let pr := p.nright
          let s' := s.map (shiftIns pr)
          .ok ((s'.filter (fun c => c.nleft < pr)) ++
               (⟨newId, nm, some pid, pr, pr + 1⟩ : Cat) ::
               (s'.filter (fun c => pr ≤ c.nleft)))

/-- Interval of `c` lies inside `[xl, xr]` (subtree membership test used by
the row-level operations). -/
def inSub (xl xr : Nat) (c : Cat) : Prop :=
  xl ≤ c.nleft ∧ c.nright ≤ xr

instance (xl xr : Nat) (c : Cat) : Decidable (inSub xl xr c) := by
  unfold inSub; infer_instance

/-- Modelled from the spec: closing the gap of width `w` left behind at
`[xl, xr]` with `xr` the removed block's right end — every bound beyond
`xr` moves down by `w` (spec section 4.1, delete/move). -/
def closeGap (xr w : Nat) (c : Cat) : Cat :=
  { c with nleft := if xr < c.nleft then c.nleft - w else c.nleft,
           nright := if xr < c.nright then c.nright - w else c.nright }

/-- Modelled from the spec: reopening a gap of width `w` at position `pos` —
every bound `>= pos` moves up by `w` (spec section 4.1, move). -/
def openGap (pos w : Nat) (c : Cat) : Cat :=
  { c with nleft := if pos ≤ c.nleft then c.nleft + w else c.nleft,
           nright := if pos ≤ c.nright then c.nright + w else c.nright }

/-- Does any row name `xid` as its parent? -/
def hasChild (s : List Cat) (xid : Nat) : Bool :=
  s.any (fun c => c.parent_category_id == some xid)

/-- Bound relocation for a PROMOTE delete of the node with interval
`[xl, xr]`: bounds strictly inside shrink by 1 (the removed node's two end
points vanish around them), bounds beyond `xr` shrink by 2. -/
def promoteShift (xl xr b : Nat) : Nat :=
  if xr < b then b - 2 else if xl < b then b - 1 else b

/-- Row fix-up for a PROMOTE delete of node `xid` (interval `[xl, xr]`,
former parent `px`): relocate both bounds and reparent direct children of
`xid` to `px`. -/
def promoteFix (xid : Nat) (px : Option Nat) (xl xr : Nat) (c : Cat) : Cat :=
  { c with nleft := promoteShift xl xr c.nleft,
           nright := promoteShift xl xr c.nright,
           parent_category_id :=
             if c.parent_category_id = some xid then px else c.parent_category_id }

/-- Modelled from the spec: `delete(node_id, policy)` (spec section 4.1);
the repository contains no executable allocator.  With no policy the call
fails on a node that has children (`NotEmptyError`, no silent default) and
otherwise removes the childless node; CASCADE removes the node and every
row whose interval lies inside its own and closes the gap; PROMOTE removes
only the node, reparents its direct children to its former parent, and
closes the two freed points. -/
def tryDelete (s : List Cat) (xid : Nat) (policy : Option Policy) :
    Except Err (List Cat) :=
  match findCat s xid with
  | none => .error .notFound
  | some X =>
    match policy with
    | none =>
        if hasChild s xid then .error .notEmpty
        else
          .ok ((s.filter (fun c => ¬ inSub X.nleft X.nright c)).map
                (closeGap X.nright (X.nright - X.nleft + 1)))
    | some .cascade =>
        .ok ((s.filter (fun c => ¬ inSub X.nleft X.nright c)).map
              (closeGap X.nright (X.nright - X.nleft + 1)))
    | some .promote =>
        .ok ((s.filter (fun c => c.category_id != xid)).map
              (promoteFix xid X.parent_category_id X.nleft X.nright))

/-- Relocation of the moved block: a bound `b` of the extracted subtree
(whose old numbering starts at `xl`) lands at `b - xl + pos`, and the moved
root itself is reparented to `yid`. -/
def moveBlock (pos xl yid xid : Nat) (c : Cat) : Cat :=
  { c with nleft := c.nleft - xl + pos,
           nright := c.nright - xl + pos,
           parent_category_id :=
             if c.category_id = xid then some yid else c.parent_category_id }

/-- Modelled from the spec: `move(node_id, new_parent_id)` (spec section
4.1); the repository contains no executable allocator.  Fails with
`CycleError` when the new parent's interval lies inside the moved node's
interval (the new parent is the node itself or one of its descendants);
otherwise extracts the subtree block, closes the gap it leaves, reopens a
gap of the same width at the new parent's (gap-closed) `nright`, and
relocates the block there, reparenting the moved root. -/
def tryMove (s : List Cat) (xid yid : Nat) : Except Err (List Cat) :=
  match findCat s xid with
  | none => .error .notFound
  | some X =>
    match findCat s yid with
    | none => .error .notFound
    | some Y =>
      if inSub X.nleft X.nright Y then .error .cycle
      else
        let xl := X.nleft
        let xr := X.nright
        let w := xr - xl + 1
        let pos := if xr < Y.nright then Y.nright - w else Y.nright
        let R := (s.filter (fun c => ¬ inSub xl xr c)).map
                   (fun c => openGap pos w (closeGap xr w c))
        let S := (s.filter (fun c => inSub xl xr c)).map (moveBlock pos xl yid xid)
        .ok ((R.filter (fun c => c.nleft < pos)) ++ S ++
             (R.filter (fun c => pos ≤ c.nleft)))

/-- Sort rows by ascending `nleft` (the spec's ORDER BY for tree listings). -/
def sortByNleft (l : List Cat) : List Cat :=
  l.insertionSort (fun a b => a.nleft ≤ b.nleft)

/-- Modelled from the spec: `getSubtree(tenant, id)` / `listSubtree` (spec
sections 4.2 and 6): all categories whose interval is contained in the
target's interval, ordered by ascending `nleft`; `NotFoundError` on a
missing id.  The repository contains no executable store. -/
def getSubtree (s : List Cat) (xid : Nat) : Except Err (List Cat) :=
  match findCat s xid with
  | none => .error .notFound
  | some X =>
      .ok (sortByNleft (s.filter (fun c => inSub X.nleft X.nright c)))

/-- Modelled from the spec: `getAncestors(tenant, id)` / `listAncestors`
(spec sections 4.2 and 6): all categories whose interval strictly contains
the target's, ordered root-to-leaf (ascending `nleft`). -/
def getAncestors (s : List Cat) (xid : Nat) : Except Err (List Cat) :=
  match findCat s xid with
  | none => .error .notFound
  | some X =>
      .ok (sortByNleft (s.filter
            (fun c => c.nleft < X.nleft ∧ X.nright < c.nright)))

/-- Modelled from the spec: `createCategory` validates name uniqueness
within the tenant (the schema's `@@unique([activity_id, name])`,
src/prisma/schema.prisma line 133) before invoking the allocator's insert
(spec section 4.2). -/
def createCategory (s : List Cat) (newId : Nat) (nm : String) (parent : Option Nat) :
    Except Err (List Cat) :=
  if s.any (fun c => c.name == nm) then .error .duplicateName
  else allocInsert s newId nm parent

/-- State after a delete attempt: the new rows on success, the unchanged
rows on failure (a failed transaction rolls back). -/
def deleteExec (s : List Cat) (xid : Nat) (policy : Option Policy) : List Cat :=
  match tryDelete s xid policy with
  | .ok s' => s'
  | .error _ => s

/-- State after a move attempt: the new rows on success, the unchanged rows
on failure. -/
def moveExec (s : List Cat) (xid yid : Nat) : List Cat :=
  match tryMove s xid yid with
  | .ok s' => s'
  | .error _ => s

/-! ### The abstract forest model

A tenant's category hierarchy as a plain ordered forest.  The row-level
operations above are proved to simulate structural operations on this
model, and the nested-set invariants follow from properties of its
canonical pre-order interval numbering. -/

mutual
/-- Abstract category tree: a node (`id`, `name`) with its ordered children. -/
inductive Tree where
  | node (id : Nat) (nm : String) (children : Forest)
/-- Abstract ordered forest of category trees. -/
inductive Forest where
  | nil
  | cons (t : Tree) (ts : Forest)
end

/-- Root id of a tree. -/
def treeId : Tree → Nat
  | .node i _ _ => i

/-- Children forest of a tree's root. -/
def treeCh : Tree → Forest
  | .node _ _ ch => ch

/-- Forest concatenation. -/
def Forest.app : Forest → Forest → Forest
  | .nil, G => G
  | .cons t ts, G => .cons t (Forest.app ts G)

/-- Append a single tree at the end of a forest. -/
def Forest.snoc (F : Forest) (u : Tree) : Forest :=
  F.app (.cons u .nil)

mutual
/-- Number of nodes of a tree. -/
def sizeT : Tree → Nat
  | .node _ _ ch => 1 + sizeF ch
/-- Number of nodes of a forest. -/
def sizeF : Forest → Nat
  | .nil => 0
  | .cons t ts => sizeT t + sizeF ts
end

mutual
/-- Canonical nested-set rows of a tree whose root has parent `p`, numbered
from `c`: the root occupies `[c, c + 2*size - 1]` and the children are
numbered consecutively inside. -/
def rowsT (p : Option Nat) (c : Nat) : Tree → List Cat
  | .node i nm ch => ⟨i, nm, p, c, c + 2 * sizeF ch + 1⟩ :: rowsF (some i) (c + 1) ch
/-- Canonical nested-set rows of a forest numbered from `c` (pre-order). -/
def rowsF (p : Option Nat) (c : Nat) : Forest → List Cat
  | .nil => []
  | .cons t ts => rowsT p c t ++ rowsF p (c + 2 * sizeT t) ts
end

/-- The rows a tenant's forest denotes: roots have no parent, numbering
starts at 1 (so a tenant with N nodes occupies exactly `[1, 2N]`). -/
def rowsOf (F : Forest) : List Cat := rowsF none 1 F

mutual
/-- Pre-order list of ids of a tree. -/
def idsT : Tree → List Nat
  | .node i _ ch => i :: idsF ch
/-- Pre-order list of ids of a forest. -/
def idsF : Forest → List Nat
  | .nil => []
  | .cons t ts => idsT t ++ idsF ts
end

mutual
/-- Does the tree contain a node with id `xid`? -/
def containsT (xid : Nat) : Tree → Bool
  | .node i _ ch => i == xid || containsF xid ch
/-- Does the forest contain a node with id `xid`? -/
def containsF (xid : Nat) : Forest → Bool
  | .nil => false
  | .cons t ts => containsT xid t || containsF xid ts
end

mutual
/-- Attach tree `u` as the last child of the first node with id `pid`. -/
def attachT (pid : Nat) (u : Tree) : Tree → Tree
  | .node i nm ch =>
      if i == pid then .node i nm (ch.snoc u) else .node i nm (attachF pid u ch)
/-- Attach tree `u` as the last child of the first node with id `pid` in
pre-order; leaves the forest unchanged when `pid` does not occur. -/
def attachF (pid : Nat) (u : Tree) : Forest → Forest
  | .nil => .nil
  | .cons t ts =>
      if containsT pid t then .cons (attachT pid u t) ts
      else .cons t (attachF pid u ts)
end

mutual
/-- Remove the subtree rooted at the first node with id `xid` (the root of
this tree is assumed not to be it). -/
def removeT (xid : Nat) : Tree → Tree
  | .node i nm ch => .node i nm (removeF xid ch)
/-- Remove the subtree rooted at the first node with id `xid` in pre-order. -/
def removeF (xid : Nat) : Forest → Forest
  | .nil => .nil
  | .cons t ts =>
      if treeId t == xid then ts
      else if containsT xid t then .cons (removeT xid t) ts
      else .cons t (removeF xid ts)
end

mutual
/-- The subtree rooted at the first node with id `xid`, if any. -/
def subtreeT (xid : Nat) : Tree → Option Tree
  | .node i nm ch => if i == xid then some (.node i nm ch) else subtreeF xid ch
/-- The subtree rooted at the first node with id `xid` in pre-order, if any. -/
def subtreeF (xid : Nat) : Forest → Option Tree
  | .nil => none
  | .cons t ts =>
      match subtreeT xid t with
      | some u => some u
      | none => subtreeF xid ts
end

mutual
/-- Replace the first node with id `xid` by its children (the root of this
tree is assumed not to be it). -/
def promoteT (xid : Nat) : Tree → Tree
  | .node i nm ch => .node i nm (promoteF xid ch)
/-- Replace the first node with id `xid` in pre-order by its children
(PROMOTE deletion on the abstract forest; the reparenting of the children
is implicit in the structure). -/
def promoteF (xid : Nat) : Forest → Forest
  | .nil => .nil
  | .cons t ts =>
      if treeId t == xid then (treeCh t).app ts
      else if containsT xid t then .cons (promoteT xid t) ts
      else .cons t (promoteF xid ts)
end

/-! ### Basic facts about the canonical numbering -/

theorem sizeT_node (i : Nat) (nm : String) (ch : Forest) :
    sizeT (.node i nm ch) = 1 + sizeF ch := by
  simp [sizeT]

theorem sizeF_app (F G : Forest) : sizeF (F.app G) = sizeF F + sizeF G := by
  match F with
  | .nil => simp [Forest.app, sizeF]
  | .cons t ts =>
      simp only [Forest.app, sizeF, sizeF_app ts G]
      omega

theorem rowsF_app (p : Option Nat) (c : Nat) (F G : Forest) :
    rowsF p c (F.app G) = rowsF p c F ++ rowsF p (c + 2 * sizeF F) G := by
  match F with
  | .nil => simp [Forest.app, rowsF, sizeF]
  | .cons t ts =>
      simp only [Forest.app, rowsF, sizeF, rowsF_app p (c + 2 * sizeT t) ts G,
        List.append_assoc]
      have h : c + 2 * sizeT t + 2 * sizeF ts = c + 2 * (sizeT t + sizeF ts) := by
        omega
      rw [h]

theorem idsF_app (F G : Forest) : idsF (F.app G) = idsF F ++ idsF G := by
  match F with
  | .nil => simp [Forest.app, idsF]
  | .cons t ts => simp [Forest.app, idsF, idsF_app ts G]

mutual
theorem rowsT_bounds (p : Option Nat) (c : Nat) (t : Tree) :
    ∀ r ∈ rowsT p c t, c ≤ r.nleft ∧ r.nleft < r.nright ∧ r.nright < c + 2 * sizeT t := by
  match t with
  | .node i nm ch =>
      intro r hr
      simp only [rowsT, List.mem_cons] at hr
      rcases hr with h | h
      · subst h; simp [sizeT_node]; omega
      · have := rowsF_bounds (some i) (c + 1) ch r h
        simp only [sizeT_node]
        omega
theorem rowsF_bounds (p : Option Nat) (c : Nat) (F : Forest) :
    ∀ r ∈ rowsF p c F, c ≤ r.nleft ∧ r.nleft < r.nright ∧ r.nright < c + 2 * sizeF F := by
  match F with
  | .nil => intro r hr; simp [rowsF] at hr
  | .cons t ts =>
      intro r hr
      simp only [rowsF, List.mem_append] at hr
      rcases hr with h | h
      · have := rowsT_bounds p c t r h
        simp only [sizeF]
        omega
      · have := rowsF_bounds p (c + 2 * sizeT t) ts r h
        simp only [sizeF]
        omega
end

/-- Uniform translation of a row's interval. -/
def bumpRow (d : Nat) (x : Cat) : Cat :=
  { x with nleft := x.nleft + d, nright := x.nright + d }

mutual
theorem rowsT_bump (p : Option Nat) (c d : Nat) (t : Tree) :
    rowsT p (c + d) t = (rowsT p c t).map (bumpRow d) := by
  match t with
  | .node i nm ch =>
      simp only [rowsT, List.map_cons, List.cons.injEq]
      refine ⟨?_, ?_⟩
      · simp only [bumpRow]
        congr 1
        omega
      · have h : c + d + 1 = (c + 1) + d := by omega
        rw [h, rowsF_bump_aux (some i) (c + 1) d ch]
theorem rowsF_bump_aux (p : Option Nat) (c d : Nat) (F : Forest) :
    rowsF p (c + d) F = (rowsF p c F).map (bumpRow d) := by
  match F with
  | .nil => simp [rowsF]
  | .cons t ts =>
      simp only [rowsF, List.map_append]
      rw [rowsT_bump p c d t]
      have h : c + d + 2 * sizeT t = (c + 2 * sizeT t) + d := by omega
      rw [h, rowsF_bump_aux p (c + 2 * sizeT t) d ts]
end

theorem rowsF_bump (p : Option Nat) (c d : Nat) (F : Forest) :
    rowsF p (c + d) F = (rowsF p c F).map (bumpRow d) :=
  rowsF_bump_aux p c d F

theorem rowsF_openGap (p : Option Nat) (c pos w : Nat) (F : Forest) (h : pos ≤ c) :
    (rowsF p c F).map (openGap pos w) = rowsF p (c + w) F := by
  rw [rowsF_bump p c w F]
  apply List.map_congr_left
  intro r hr
  have hb := rowsF_bounds p c F r hr
  simp only [openGap, bumpRow]
  rw [if_pos (by omega), if_pos (by omega)]

theorem rowsF_closeGap (p : Option Nat) (c xr w : Nat) (F : Forest)
    (hxr : xr < c) (hw : w ≤ c) :
    (rowsF p c F).map (closeGap xr w) = rowsF p (c - w) F := by
  obtain ⟨c₀, rfl⟩ : ∃ c₀, c = c₀ + w := ⟨c - w, by omega⟩
  rw [Nat.add_sub_cancel, rowsF_bump p c₀ w F, List.map_map]
  have heq : ∀ r ∈ rowsF p c₀ F, (closeGap xr w ∘ bumpRow w) r = id r := by
    intro r hr
    have hb := rowsF_bounds p c₀ F r hr
    simp only [Function.comp_apply, closeGap, bumpRow, id]
    rw [if_pos (by omega), if_pos (by omega)]
    congr 1 <;> omega
  rw [List.map_congr_left heq, List.map_id]

theorem map_openGap_id (l : List Cat) (pos w : Nat)
    (h : ∀ r ∈ l, r.nleft < pos ∧ r.nright < pos) :
    l.map (openGap pos w) = l := by
  have heq : ∀ r ∈ l, openGap pos w r = id r := by
    intro r hr
    simp only [openGap, id]
    rw [if_neg (by have := h r hr; omega), if_neg (by have := h r hr; omega)]
  rw [List.map_congr_left heq, List.map_id]

theorem map_closeGap_id (l : List Cat) (xr w : Nat)
    (h : ∀ r ∈ l, r.nleft ≤ xr ∧ r.nright ≤ xr) :
    l.map (closeGap xr w) = l := by
  have heq : ∀ r ∈ l, closeGap xr w r = id r := by
    intro r hr
    simp only [closeGap, id]
    rw [if_neg (by have := h r hr; omega), if_neg (by have := h r hr; omega)]
  rw [List.map_congr_left heq, List.map_id]

mutual
theorem rowsT_ids (p : Option Nat) (c : Nat) (t : Tree) :
    (rowsT p c t).map (fun r => r.category_id) = idsT t := by
  match t with
  | .node i nm ch =>
      simp only [rowsT, idsT, List.map_cons, List.cons.injEq, true_and]
      exact rowsF_ids_aux (some i) (c + 1) ch
theorem rowsF_ids_aux (p : Option Nat) (c : Nat) (F : Forest) :
    (rowsF p c F).map (fun r => r.category_id) = idsF F := by
  match F with
  | .nil => simp [rowsF, idsF]
  | .cons t ts =>
      simp only [rowsF, idsF, List.map_append]
      rw [rowsT_ids p c t, rowsF_ids_aux p (c + 2 * sizeT t) ts]
end

theorem rowsF_ids (p : Option Nat) (c : Nat) (F : Forest) :
    (rowsF p c F).map (fun r => r.category_id) = idsF F :=
  rowsF_ids_aux p c F

/-! ### Laminar structure of the numbering -/

/-- Two rows' intervals are laminar-compatible: disjoint, or one strictly
contains the other (the invariant of the claimed nested-set encoding). -/
def lam (A B : Cat) : Prop :=
  (A.nright < B.nleft ∨ B.nright < A.nleft) ∨
  (A.nleft < B.nleft ∧ B.nright < A.nright) ∨
  (B.nleft < A.nleft ∧ A.nright < B.nright)

/-- Rows as emitted are in strict pre-order (`nleft` increasing) and
pairwise laminar. -/
def ordLam (A B : Cat) : Prop :=
  A.nleft < B.nleft ∧ lam A B

mutual
theorem rowsT_pairwise (p : Option Nat) (c : Nat) (t : Tree) :
    (rowsT p c t).Pairwise ordLam := by
  match t with
  | .node i nm ch =>
      simp only [rowsT, List.pairwise_cons]
      refine ⟨?_, rowsF_pairwise_aux (some i) (c + 1) ch⟩
      intro b hb
      have hbb := rowsF_bounds (some i) (c + 1) ch b hb
      exact ⟨show c < b.nleft by omega,
        Or.inr (Or.inl ⟨show c < b.nleft by omega,
          show b.nright < c + 2 * sizeF ch + 1 by omega⟩)⟩
theorem rowsF_pairwise_aux (p : Option Nat) (c : Nat) (F : Forest) :
    (rowsF p c F).Pairwise ordLam := by
  match F with
  | .nil => simp [rowsF]
  | .cons t ts =>
      simp only [rowsF, List.pairwise_append]
      refine ⟨rowsT_pairwise p c t,
        rowsF_pairwise_aux p (c + 2 * sizeT t) ts, ?_⟩
      intro a ha b hb
      have haa := rowsT_bounds p c t a ha
      have hbb := rowsF_bounds p (c + 2 * sizeT t) ts b hb
      exact ⟨by omega, Or.inl (Or.inl (by omega))⟩
end

theorem rowsF_pairwise (p : Option Nat) (c : Nat) (F : Forest) :
    (rowsF p c F).Pairwise ordLam :=
  rowsF_pairwise_aux p c F

/-! ### Ids, membership and lookup on numbered rows -/

mutual
theorem containsT_iff (xid : Nat) (t : Tree) :
    containsT xid t = true ↔ xid ∈ idsT t := by
  match t with
  | .node i nm ch =>
      simp only [containsT, idsT, Bool.or_eq_true, beq_iff_eq, List.mem_cons]
      rw [containsF_iff_aux xid ch]
      tauto
theorem containsF_iff_aux (xid : Nat) (F : Forest) :
    containsF xid F = true ↔ xid ∈ idsF F := by
  match F with
  | .nil => simp [containsF, idsF]
  | .cons t ts =>
      simp only [containsF, idsF, Bool.or_eq_true, List.mem_append]
      rw [containsT_iff xid t, containsF_iff_aux xid ts]
end

theorem containsF_iff (xid : Nat) (F : Forest) :
    containsF xid F = true ↔ xid ∈ idsF F :=
  containsF_iff_aux xid F

theorem mem_rowsT_id (p : Option Nat) (c : Nat) (t : Tree) (r : Cat)
    (h : r ∈ rowsT p c t) : r.category_id ∈ idsT t := by
  rw [← rowsT_ids p c t]
  exact List.mem_map_of_mem _ h

theorem mem_rowsF_id (p : Option Nat) (c : Nat) (F : Forest) (r : Cat)
    (h : r ∈ rowsF p c F) : r.category_id ∈ idsF F := by
  rw [← rowsF_ids p c F]
  exact List.mem_map_of_mem _ h

theorem findCat_some (s : List Cat) (xid : Nat) (P : Cat)
    (h : findCat s xid = some P) : P ∈ s ∧ P.category_id = xid := by
  refine ⟨List.mem_of_find?_eq_some h, ?_⟩
  have := List.find?_some h
  simpa using this

theorem findCat_rowsT_none (p : Option Nat) (c : Nat) (t : Tree) (xid : Nat)
    (h : containsT xid t = false) : findCat (rowsT p c t) xid = none := by
  rw [findCat, List.find?_eq_none]
  intro r hr hbeq
  have : r.category_id = xid := by simpa using hbeq
  rw [← this] at h
  have := mem_rowsT_id p c t r hr
  rw [← containsT_iff] at this
  simp [this] at h

theorem findCat_rowsF_none (p : Option Nat) (c : Nat) (F : Forest) (xid : Nat)
    (h : containsF xid F = false) : findCat (rowsF p c F) xid = none := by
  rw [findCat, List.find?_eq_none]
  intro r hr hbeq
  have : r.category_id = xid := by simpa using hbeq
  rw [← this] at h
  have := mem_rowsF_id p c F r hr
  rw [← containsF_iff] at this
  simp [this] at h

theorem findCat_rowsT_isSome (p : Option Nat) (c : Nat) (t : Tree) (xid : Nat)
    (h : containsT xid t = true) : (findCat (rowsT p c t) xid).isSome := by
  rw [containsT_iff, ← rowsT_ids p c t] at h
  obtain ⟨r, hr, hid⟩ := List.mem_map.mp h
  rw [findCat, List.find?_isSome]
  exact ⟨r, hr, by simp [hid]⟩

theorem findCat_append (s₁ s₂ : List Cat) (xid : Nat) :
    findCat (s₁ ++ s₂) xid = (findCat s₁ xid).or (findCat s₂ xid) :=
  List.find?_append

/-! ### Sizes of the modified forests -/

theorem sizeF_snoc (F : Forest) (u : Tree) :
    sizeF (F.snoc u) = sizeF F + sizeT u := by
  simp only [Forest.snoc, sizeF_app, sizeF]
  omega

theorem rowsF_snoc (p : Option Nat) (c : Nat) (F : Forest) (u : Tree) :
    rowsF p c (F.snoc u) = rowsF p c F ++ rowsT p (c + 2 * sizeF F) u := by
  simp [Forest.snoc, rowsF_app, rowsF]

mutual
theorem sizeT_attachT (pid : Nat) (u : Tree) (t : Tree)
    (h : containsT pid t = true) :
    sizeT (attachT pid u t) = sizeT t + sizeT u := by
  match t with
  | .node i nm ch =>
      by_cases hi : (i == pid) = true
      · simp only [attachT, if_pos hi, sizeT_node, sizeF_snoc]
        omega
      · have hch : containsF pid ch = true := by
          simp only [containsT, Bool.or_eq_true] at h
          tauto
        simp only [attachT, if_neg hi, sizeT_node,
          sizeF_attachF_aux pid u ch hch]
        omega
theorem sizeF_attachF_aux (pid : Nat) (u : Tree) (F : Forest)
    (h : containsF pid F = true) :
    sizeF (attachF pid u F) = sizeF F + sizeT u := by
  match F with
  | .nil => simp [containsF] at h
  | .cons t ts =>
      by_cases ht : containsT pid t = true
      · simp only [attachF, if_pos ht, sizeF, sizeT_attachT pid u t ht]
        omega
      · have hts : containsF pid ts = true := by
          simp only [containsF, Bool.or_eq_true] at h
          tauto
        simp only [attachF, if_neg ht, sizeF,
          sizeF_attachF_aux pid u ts hts]
        omega
end

theorem sizeF_attachF (pid : Nat) (u : Tree) (F : Forest)
    (h : containsF pid F = true) :
    sizeF (attachF pid u F) = sizeF F + sizeT u :=
  sizeF_attachF_aux pid u F h

theorem findCat_rowsT_node (p : Option Nat) (c : Nat) (i : Nat) (nm : String)
    (ch : Forest) (pid : Nat) :
    findCat (rowsT p c (.node i nm ch)) pid =
      if i == pid then some ⟨i, nm, p, c, c + 2 * sizeF ch + 1⟩
      else findCat (rowsF (some i) (c + 1) ch) pid := by
  by_cases hi : (i == pid) = true
  · simp only [rowsT, findCat, if_pos hi]
    exact List.find?_cons_of_pos _ (by simpa using hi)
  · simp only [rowsT, findCat, if_neg hi]
    exact List.find?_cons_of_neg _ (by simpa using hi)

/-! ### Simulation: attaching a subtree as a new last child

The row-level gap-opening splice used by `allocInsert` (leaf case) and
`tryMove` (general case) produces exactly the rows of the forest with the
block attached under the first node with id `pid`. -/

mutual
theorem attachT_rows (pid : Nat) (u : Tree) (p : Option Nat) (c : Nat)
    (t : Tree) (P : Cat)
    (hfind : findCat (rowsT p c t) pid = some P) :
    rowsT p c (attachT pid u t) =
      ((rowsT p c t).map (openGap P.nright (2 * sizeT u))).filter
          (fun r => r.nleft < P.nright) ++
        rowsT (some pid) P.nright u ++
        ((rowsT p c t).map (openGap P.nright (2 * sizeT u))).filter
          (fun r => P.nright ≤ r.nleft) := by
  match t with
  | .node i nm ch =>
      rw [findCat_rowsT_node] at hfind
      by_cases hi : (i == pid) = true
      · rw [if_pos hi] at hfind
        have hieq : i = pid := by simpa using hi
        have hnr : P.nright = c + 2 * sizeF ch + 1 := by
          rw [← Option.some.inj hfind]
        rw [hnr]
        have hhead : openGap (c + 2 * sizeF ch + 1) (2 * sizeT u)
              (⟨i, nm, p, c, c + 2 * sizeF ch + 1⟩ : Cat)
            = ⟨i, nm, p, c, c + 2 * sizeF ch + 1 + 2 * sizeT u⟩ := by
          simp only [openGap, if_neg (show ¬ (c + 2 * sizeF ch + 1 ≤ c) by omega),
            if_pos (le_refl (c + 2 * sizeF ch + 1))]
        have hchid : (rowsF (some i) (c + 1) ch).map
            (openGap (c + 2 * sizeF ch + 1) (2 * sizeT u))
            = rowsF (some i) (c + 1) ch := by
          apply map_openGap_id
          intro r hr
          have := rowsF_bounds (some i) (c + 1) ch r hr
          omega
        simp only [attachT, if_pos hi, rowsT, List.map_cons, hchid, hhead,
          rowsF_snoc, sizeF_snoc]
        rw [List.filter_cons_of_pos
              (by simp only [decide_eq_true_eq]
                  show c < c + 2 * sizeF ch + 1
                  omega),
            List.filter_cons_of_neg
              (by simp only [decide_eq_true_eq]
                  show ¬ (c + 2 * sizeF ch + 1 ≤ c)
                  omega),
            List.filter_eq_self.mpr ?hall, List.filter_eq_nil_iff.mpr ?hnone]
        case hall =>
          intro r hr
          have := rowsF_bounds (some i) (c + 1) ch r hr
          simp only [decide_eq_true_eq]
          omega
        case hnone =>
          intro r hr
          have := rowsF_bounds (some i) (c + 1) ch r hr
          simp only [decide_eq_true_eq]
          omega
        simp only [List.append_nil, List.cons_append, List.cons.injEq]
        refine ⟨by congr 1; omega, ?_⟩
        rw [hieq, show c + 1 + 2 * sizeF ch = c + 2 * sizeF ch + 1 by omega]
      · rw [if_neg hi] at hfind
        have hPmem := findCat_some _ _ _ hfind
        have hPb := rowsF_bounds (some i) (c + 1) ch P hPmem.1
        have hcf : containsF pid ch = true := by
          rw [containsF_iff]
          have := mem_rowsF_id (some i) (c + 1) ch P hPmem.1
          rw [← hPmem.2]
          exact this
        have hghead : openGap P.nright (2 * sizeT u)
              (⟨i, nm, p, c, c + 2 * sizeF ch + 1⟩ : Cat)
            = ⟨i, nm, p, c, c + 2 * sizeF ch + 1 + 2 * sizeT u⟩ := by
          simp only [openGap, if_neg (show ¬ (P.nright ≤ c) by omega),
            if_pos (show P.nright ≤ c + 2 * sizeF ch + 1 by omega)]
        simp only [attachT, if_neg hi, rowsT, List.map_cons, hghead,
          sizeF_attachF_aux pid u ch hcf,
          attachF_rows_aux pid u (some i) (c + 1) ch P hfind]
        rw [List.filter_cons_of_pos
              (by simp only [decide_eq_true_eq]
                  show c < P.nright
                  omega),
            List.filter_cons_of_neg
              (by simp only [decide_eq_true_eq]
                  show ¬ (P.nright ≤ c)
                  omega)]
        simp only [List.cons_append, List.append_assoc, List.cons.injEq]
        exact ⟨by congr 1; omega, trivial⟩
theorem attachF_rows_aux (pid : Nat) (u : Tree) (p : Option Nat)
    (c : Nat) (F : Forest) (P : Cat)
    (hfind : findCat (rowsF p c F) pid = some P) :
    rowsF p c (attachF pid u F) =
      ((rowsF p c F).map (openGap P.nright (2 * sizeT u))).filter
          (fun r => r.nleft < P.nright) ++
        rowsT (some pid) P.nright u ++
        ((rowsF p c F).map (openGap P.nright (2 * sizeT u))).filter
          (fun r => P.nright ≤ r.nleft) := by
  match F with
  | .nil => simp [rowsF, findCat] at hfind
  | .cons t ts =>
      by_cases ht : containsT pid t = true
      · obtain ⟨P', hP'⟩ := Option.isSome_iff_exists.mp
          (findCat_rowsT_isSome p c t pid ht)
        have hPP : P' = P := by
          rw [rowsF, findCat_append, hP', Option.or_some] at hfind
          exact Option.some.inj hfind
        rw [hPP] at hP'
        have hPb := rowsT_bounds p c t P (findCat_some _ _ _ hP').1
        have htsrows : (rowsF p (c + 2 * sizeT t) ts).map
            (openGap P.nright (2 * sizeT u))
            = rowsF p (c + 2 * sizeT t + 2 * sizeT u) ts :=
          rowsF_openGap p (c + 2 * sizeT t) P.nright (2 * sizeT u) ts (by omega)
        have h2 : (rowsF p (c + 2 * sizeT t + 2 * sizeT u) ts).filter
            (fun r => r.nleft < P.nright) = [] := by
          rw [List.filter_eq_nil_iff]
          intro r hr
          have := rowsF_bounds p (c + 2 * sizeT t + 2 * sizeT u) ts r hr
          simp only [decide_eq_true_eq]
          omega
        have h3 : (rowsF p (c + 2 * sizeT t + 2 * sizeT u) ts).filter
            (fun r => P.nright ≤ r.nleft)
            = rowsF p (c + 2 * sizeT t + 2 * sizeT u) ts := by
          rw [List.filter_eq_self]
          intro r hr
          have := rowsF_bounds p (c + 2 * sizeT t + 2 * sizeT u) ts r hr
          simp only [decide_eq_true_eq]
          omega
        simp only [attachF, if_pos ht, rowsF, List.map_append, List.filter_append,
          htsrows, h2, h3, sizeT_attachT pid u t ht,
          show c + 2 * (sizeT t + sizeT u) = c + 2 * sizeT t + 2 * sizeT u by omega,
          attachT_rows pid u p c t P hP']
        simp [List.append_assoc]
      · have hnone := findCat_rowsT_none p c t pid (Bool.not_eq_true _ ▸ ht)
        have hfind' : findCat (rowsF p (c + 2 * sizeT t) ts) pid = some P := by
          rw [rowsF, findCat_append, hnone, Option.none_or] at hfind
          exact hfind
        have hPmem := findCat_some _ _ _ hfind'
        have hPb := rowsF_bounds p (c + 2 * sizeT t) ts P hPmem.1
        have htid : (rowsT p c t).map (openGap P.nright (2 * sizeT u))
            = rowsT p c t := by
          apply map_openGap_id
          intro r hr
          have := rowsT_bounds p c t r hr
          omega
        have h2 : (rowsT p c t).filter (fun r => r.nleft < P.nright)
            = rowsT p c t := by
          rw [List.filter_eq_self]
          intro r hr
          have := rowsT_bounds p c t r hr
          simp only [decide_eq_true_eq]
          omega
        have h3 : (rowsT p c t).filter (fun r => P.nright ≤ r.nleft) = [] := by
          rw [List.filter_eq_nil_iff]
          intro r hr
          have := rowsT_bounds p c t r hr
          simp only [decide_eq_true_eq]
          omega
        simp only [attachF, if_neg ht, rowsF, List.map_append, List.filter_append,
          htid, h2, h3,
          attachF_rows_aux pid u p (c + 2 * sizeT t) ts P hfind']
        simp [List.append_assoc]
end

theorem attachF_rows (pid : Nat) (u : Tree) (p : Option Nat) (c : Nat)
    (F : Forest) (P : Cat)
    (hfind : findCat (rowsF p c F) pid = some P) :
    rowsF p c (attachF pid u F) =
      ((rowsF p c F).map (openGap P.nright (2 * sizeT u))).filter
          (fun r => r.nleft < P.nright) ++
        rowsT (some pid) P.nright u ++
        ((rowsF p c F).map (openGap P.nright (2 * sizeT u))).filter
          (fun r => P.nright ≤ r.nleft) :=
  attachF_rows_aux pid u p c F P hfind

/-! ### Simulation: removing a subtree and closing its gap

The row-level filter-and-close-gap transformation used by `tryDelete`
(CASCADE and childless-node cases) and by the extraction phase of
`tryMove` produces exactly the rows of the forest with the subtree of
the first node with id `xid` removed.  The second conjunct tracks that
the removed block's width equals twice the removed subtree's size. -/

mutual
theorem removeT_rows (xid : Nat) (p : Option Nat) (c : Nat) (t : Tree) (X : Cat)
    (hroot : (treeId t == xid) = false)
    (hfind : findCat (rowsT p c t) xid = some X) :
    rowsT p c (removeT xid t) =
      ((rowsT p c t).filter (fun r => ¬ inSub X.nleft X.nright r)).map
        (closeGap X.nright (X.nright - X.nleft + 1)) ∧
      2 * sizeT (removeT xid t) + (X.nright - X.nleft + 1) = 2 * sizeT t := by
  match t with
  | .node i nm ch =>
      have hi : (i == xid) = false := by simpa [treeId] using hroot
      rw [findCat_rowsT_node, if_neg (by simp [hi])] at hfind
      have hXmem := findCat_some _ _ _ hfind
      have hXb := rowsF_bounds (some i) (c + 1) ch X hXmem.1
      have IH := removeF_rows_aux xid (some i) (c + 1) ch X hfind
      have hchead : closeGap X.nright (X.nright - X.nleft + 1)
            (⟨i, nm, p, c, c + 2 * sizeF ch + 1⟩ : Cat)
          = ⟨i, nm, p, c, c + 2 * sizeF ch + 1 - (X.nright - X.nleft + 1)⟩ := by
        simp only [closeGap, if_neg (show ¬ (X.nright < c) by omega),
          if_pos (show X.nright < c + 2 * sizeF ch + 1 by omega)]
      constructor
      · simp only [removeT, rowsT, IH.1]
        rw [List.filter_cons_of_pos
              (by simp only [decide_eq_true_eq, inSub]
                  show ¬ (X.nleft ≤ c ∧ c + 2 * sizeF ch + 1 ≤ X.nright)
                  omega)]
        simp only [List.map_cons, hchead, List.cons.injEq]
        refine ⟨by congr 1; omega, trivial⟩
      · simp only [removeT, sizeT_node]
        omega
theorem removeF_rows_aux (xid : Nat) (p : Option Nat) (c : Nat)
    (F : Forest) (X : Cat)
    (hfind : findCat (rowsF p c F) xid = some X) :
    rowsF p c (removeF xid F) =
      ((rowsF p c F).filter (fun r => ¬ inSub X.nleft X.nright r)).map
        (closeGap X.nright (X.nright - X.nleft + 1)) ∧
      2 * sizeF (removeF xid F) + (X.nright - X.nleft + 1) = 2 * sizeF F := by
  match F with
  | .nil => simp [rowsF, findCat] at hfind
  | .cons t ts =>
      obtain ⟨i, nm, ch⟩ := t
      by_cases hi : (i == xid) = true
      · have hX : X = ⟨i, nm, p, c, c + 2 * sizeF ch + 1⟩ := by
          rw [rowsF, findCat_append, findCat_rowsT_node, if_pos hi,
            Option.or_some] at hfind
          exact (Option.some.inj hfind).symm
        have hxl : X.nleft = c := by rw [hX]
        have hxr : X.nright = c + 2 * sizeF ch + 1 := by rw [hX]
        have hnil : (rowsT p c (.node i nm ch)).filter
            (fun r => ¬ inSub X.nleft X.nright r) = [] := by
          rw [List.filter_eq_nil_iff]
          intro r hr
          have := rowsT_bounds p c (.node i nm ch) r hr
          rw [sizeT_node] at this
          simp only [decide_eq_true_eq, inSub]
          omega
        have hself : (rowsF p (c + 2 * sizeT (.node i nm ch)) ts).filter
            (fun r => ¬ inSub X.nleft X.nright r)
            = rowsF p (c + 2 * sizeT (.node i nm ch)) ts := by
          rw [List.filter_eq_self]
          intro r hr
          have := rowsF_bounds p (c + 2 * sizeT (.node i nm ch)) ts r hr
          rw [sizeT_node] at this
          simp only [decide_eq_true_eq, inSub]
          omega
        have hmap : (rowsF p (c + 2 * sizeT (.node i nm ch)) ts).map
            (closeGap X.nright (X.nright - X.nleft + 1))
            = rowsF p c ts := by
          rw [rowsF_closeGap p _ X.nright (X.nright - X.nleft + 1) ts
              (by rw [sizeT_node]; omega) (by rw [sizeT_node]; omega)]
          congr 1
          rw [sizeT_node]
          omega
        constructor
        · rw [show removeF xid (.cons (.node i nm ch) ts) = ts by
                simp [removeF, treeId, hi]]
          rw [rowsF, List.filter_append, hnil, hself, List.nil_append, hmap]
        · simp only [show removeF xid (.cons (.node i nm ch) ts) = ts by
                simp [removeF, treeId, hi], sizeF, sizeT_node]
          omega
      · have hib : (i == xid) = false := by
          cases h : (i == xid)
          · rfl
          · exact absurd h hi
        by_cases hct : containsT xid (.node i nm ch) = true
        · obtain ⟨X', hX'⟩ := Option.isSome_iff_exists.mp
            (findCat_rowsT_isSome p c (.node i nm ch) xid hct)
          have hXX : X' = X := by
            rw [rowsF, findCat_append, hX', Option.or_some] at hfind
            exact Option.some.inj hfind
          rw [hXX] at hX'
          have hXb := rowsT_bounds p c (.node i nm ch) X (findCat_some _ _ _ hX').1
          have IH := removeT_rows xid p c (.node i nm ch) X
            (by simp [treeId, hib]) hX'
          have hself : (rowsF p (c + 2 * sizeT (.node i nm ch)) ts).filter
              (fun r => ¬ inSub X.nleft X.nright r)
              = rowsF p (c + 2 * sizeT (.node i nm ch)) ts := by
            rw [List.filter_eq_self]
            intro r hr
            have := rowsF_bounds p (c + 2 * sizeT (.node i nm ch)) ts r hr
            simp only [decide_eq_true_eq, inSub]
            omega
          have hmap : (rowsF p (c + 2 * sizeT (.node i nm ch)) ts).map
              (closeGap X.nright (X.nright - X.nleft + 1))
              = rowsF p (c + 2 * sizeT (removeT xid (.node i nm ch))) ts := by
            rw [rowsF_closeGap p _ X.nright (X.nright - X.nleft + 1) ts
                (by omega) (by omega)]
            congr 1
            omega
          constructor
          · rw [show removeF xid (.cons (.node i nm ch) ts)
                  = .cons (removeT xid (.node i nm ch)) ts by
                  simp [removeF, treeId, hib, hct]]
            rw [rowsF, rowsF, List.filter_append, hself, List.map_append,
              IH.1, hmap]
          · simp only [show removeF xid (.cons (.node i nm ch) ts)
                  = .cons (removeT xid (.node i nm ch)) ts by
                  simp [removeF, treeId, hib, hct], sizeF]
            have := IH.2
            omega
        · have hctf : containsT xid (.node i nm ch) = false := by
            cases h : containsT xid (.node i nm ch)
            · rfl
            · exact absurd h hct
          have hnone := findCat_rowsT_none p c (.node i nm ch) xid hctf
          have hfind' : findCat (rowsF p (c + 2 * sizeT (.node i nm ch)) ts) xid
              = some X := by
            rw [rowsF, findCat_append, hnone, Option.none_or] at hfind
            exact hfind
          have hXmem := findCat_some _ _ _ hfind'
          have hXb := rowsF_bounds p (c + 2 * sizeT (.node i nm ch)) ts X hXmem.1
          have IH := removeF_rows_aux xid p
            (c + 2 * sizeT (.node i nm ch)) ts X hfind'
          have hselft : (rowsT p c (.node i nm ch)).filter
              (fun r => ¬ inSub X.nleft X.nright r)
              = rowsT p c (.node i nm ch) := by
            rw [List.filter_eq_self]
            intro r hr
            have := rowsT_bounds p c (.node i nm ch) r hr
            simp only [decide_eq_true_eq, inSub]
            omega
          have hidt : (rowsT p c (.node i nm ch)).map
              (closeGap X.nright (X.nright - X.nleft + 1))
              = rowsT p c (.node i nm ch) := by
            apply map_closeGap_id
            intro r hr
            have := rowsT_bounds p c (.node i nm ch) r hr
            omega
          constructor
          · rw [show removeF xid (.cons (.node i nm ch) ts)
                  = .cons (.node i nm ch) (removeF xid ts) by
                  simp [removeF, treeId, hib, hctf]]
            rw [rowsF, rowsF, List.filter_append, hselft, List.map_append,
              hidt, IH.1]
          · simp only [show removeF xid (.cons (.node i nm ch) ts)
                  = .cons (.node i nm ch) (removeF xid ts) by
                  simp [removeF, treeId, hib, hctf], sizeF]
            have := IH.2
            omega
end

theorem removeF_rows (xid : Nat) (p : Option Nat) (c : Nat)
    (F : Forest) (X : Cat)
    (hfind : findCat (rowsF p c F) xid = some X) :
    rowsF p c (removeF xid F) =
      ((rowsF p c F).filter (fun r => ¬ inSub X.nleft X.nright r)).map
        (closeGap X.nright (X.nright - X.nleft + 1)) ∧
      2 * sizeF (removeF xid F) + (X.nright - X.nleft + 1) = 2 * sizeF F :=
  removeF_rows_aux xid p c F X hfind

/-! ### The subtree block: `filter inSub` extracts a contiguous subtree -/

mutual
theorem subtreeT_none (xid : Nat) (t : Tree) (h : containsT xid t = false) :
    subtreeT xid t = none := by
  match t with
  | .node i nm ch =>
      simp only [containsT, Bool.or_eq_false_iff] at h
      have := subtreeF_none_aux xid ch h.2
      simp [subtreeT, h.1, this]
theorem subtreeF_none_aux (xid : Nat) (F : Forest)
    (h : containsF xid F = false) :
    subtreeF xid F = none := by
  match F with
  | .nil => simp [subtreeF]
  | .cons t ts =>
      simp only [containsF, Bool.or_eq_false_iff] at h
      simp only [subtreeF, subtreeT_none xid t h.1]
      exact subtreeF_none_aux xid ts h.2
end

theorem subtreeF_none (xid : Nat) (F : Forest) (h : containsF xid F = false) :
    subtreeF xid F = none :=
  subtreeF_none_aux xid F h

mutual
theorem subtreeT_block (xid : Nat) (p : Option Nat) (c : Nat) (t : Tree) (X : Cat)
    (hfind : findCat (rowsT p c t) xid = some X) :
    ∃ u q, subtreeT xid t = some u ∧ treeId u = xid ∧
      X.nright + 1 = X.nleft + 2 * sizeT u ∧
      rowsT q X.nleft u
        = (rowsT p c t).filter (fun r => inSub X.nleft X.nright r) ∧
      rowsT q X.nleft u = X :: rowsF (some xid) (X.nleft + 1) (treeCh u) := by
  match t with
  | .node i nm ch =>
      rw [findCat_rowsT_node] at hfind
      by_cases hi : (i == xid) = true
      · rw [if_pos hi] at hfind
        have hieq : i = xid := by simpa using hi
        have hX : X = ⟨i, nm, p, c, c + 2 * sizeF ch + 1⟩ :=
          (Option.some.inj hfind).symm
        have hxl : X.nleft = c := by rw [hX]
        have hxr : X.nright = c + 2 * sizeF ch + 1 := by rw [hX]
        refine ⟨.node i nm ch, p, by simp [subtreeT, hi], by simp [treeId, hieq],
          by rw [sizeT_node]; omega, ?_, ?_⟩
        · rw [List.filter_eq_self.mpr ?hall]
          · rw [hxl]
          case hall =>
            intro r hr
            have := rowsT_bounds p c (.node i nm ch) r hr
            rw [sizeT_node] at this
            simp only [decide_eq_true_eq, inSub]
            omega
        · rw [hxl]
          simp only [rowsT, treeCh, hieq, List.cons.injEq]
          refine ⟨?_, trivial⟩
          rw [hX, hieq]
      · rw [if_neg hi] at hfind
        obtain ⟨u, q, hsub, hid, hsz, hrows, hcons⟩ :=
          subtreeF_block_aux xid (some i) (c + 1) ch X hfind
        have hXmem := findCat_some _ _ _ hfind
        have hXb := rowsF_bounds (some i) (c + 1) ch X hXmem.1
        refine ⟨u, q, by simp [subtreeT, hi, hsub], hid, hsz, ?_, hcons⟩
        simp only [rowsT]
        rw [List.filter_cons_of_neg
              (by simp only [decide_eq_true_eq, inSub]
                  show ¬ (X.nleft ≤ c ∧ c + 2 * sizeF ch + 1 ≤ X.nright)
                  omega)]
        exact hrows
theorem subtreeF_block_aux (xid : Nat) (p : Option Nat) (c : Nat)
    (F : Forest) (X : Cat)
    (hfind : findCat (rowsF p c F) xid = some X) :
    ∃ u q, subtreeF xid F = some u ∧ treeId u = xid ∧
      X.nright + 1 = X.nleft + 2 * sizeT u ∧
      rowsT q X.nleft u
        = (rowsF p c F).filter (fun r => inSub X.nleft X.nright r) ∧
      rowsT q X.nleft u = X :: rowsF (some xid) (X.nleft + 1) (treeCh u) := by
  match F with
  | .nil => simp [rowsF, findCat] at hfind
  | .cons t ts =>
      by_cases hct : containsT xid t = true
      · obtain ⟨X', hX'⟩ := Option.isSome_iff_exists.mp
          (findCat_rowsT_isSome p c t xid hct)
        have hXX : X' = X := by
          rw [rowsF, findCat_append, hX', Option.or_some] at hfind
          exact Option.some.inj hfind
        rw [hXX] at hX'
        have hXb := rowsT_bounds p c t X (findCat_some _ _ _ hX').1
        obtain ⟨u, q, hsub, hid, hsz, hrows, hcons⟩ :=
          subtreeT_block xid p c t X hX'
        have hnil : (rowsF p (c + 2 * sizeT t) ts).filter
            (fun r => inSub X.nleft X.nright r) = [] := by
          rw [List.filter_eq_nil_iff]
          intro r hr
          have := rowsF_bounds p (c + 2 * sizeT t) ts r hr
          simp only [decide_eq_true_eq, inSub]
          omega
        refine ⟨u, q, by simp [subtreeF, hsub], hid, hsz, ?_, hcons⟩
        rw [rowsF, List.filter_append, hnil, List.append_nil]
        exact hrows
      · have hctf : containsT xid t = false := Bool.not_eq_true _ ▸ hct
        have hnone := findCat_rowsT_none p c t xid hctf
        have hfind' : findCat (rowsF p (c + 2 * sizeT t) ts) xid = some X := by
          rw [rowsF, findCat_append, hnone, Option.none_or] at hfind
          exact hfind
        have hXmem := findCat_some _ _ _ hfind'
        have hXb := rowsF_bounds p (c + 2 * sizeT t) ts X hXmem.1
        obtain ⟨u, q, hsub, hid, hsz, hrows, hcons⟩ :=
          subtreeF_block_aux xid p (c + 2 * sizeT t) ts X hfind'
        have hnil2 : (rowsT p c t).filter
            (fun r => inSub X.nleft X.nright r) = [] := by
          rw [List.filter_eq_nil_iff]
          intro r hr
          have := rowsT_bounds p c t r hr
          simp only [decide_eq_true_eq, inSub]
          omega
        refine ⟨u, q, by simp [subtreeF, subtreeT_none xid t hctf, hsub],
          hid, hsz, ?_, hcons⟩
        rw [rowsF, List.filter_append, hnil2, List.nil_append]
        exact hrows
end

theorem subtreeF_block (xid : Nat) (p : Option Nat) (c : Nat)
    (F : Forest) (X : Cat)
    (hfind : findCat (rowsF p c F) xid = some X) :
    ∃ u q, subtreeF xid F = some u ∧ treeId u = xid ∧
      X.nright + 1 = X.nleft + 2 * sizeT u ∧
      rowsT q X.nleft u
        = (rowsF p c F).filter (fun r => inSub X.nleft X.nright r) ∧
      rowsT q X.nleft u = X :: rowsF (some xid) (X.nleft + 1) (treeCh u) :=
  subtreeF_block_aux xid p c F X hfind

/-! ### The end of the numbering space -/

theorem maxNright_cons (a : Cat) (l : List Cat) :
    maxNright (a :: l) = max a.nright (maxNright l) := rfl

theorem le_maxNright (l : List Cat) (r : Cat) (h : r ∈ l) :
    r.nright ≤ maxNright l := by
  induction l with
  | nil => simp at h
  | cons a l ih =>
      rw [maxNright_cons]
      rcases List.mem_cons.mp h with rfl | h
      · exact le_max_left _ _
      · exact le_trans (ih h) (le_max_right _ _)

theorem maxNright_le (l : List Cat) (n : Nat) (h : ∀ r ∈ l, r.nright ≤ n) :
    maxNright l ≤ n := by
  induction l with
  | nil => exact Nat.zero_le n
  | cons a l ih =>
      rw [maxNright_cons]
      exact max_le (h a (List.mem_cons_self a l)) (ih fun r hr => h r (List.mem_cons_of_mem a hr))

theorem rowsF_attains (p : Option Nat) (c : Nat) (t : Tree) (ts : Forest) :
    ∃ r ∈ rowsF p c (.cons t ts), r.nright + 1 = c + 2 * sizeF (.cons t ts) := by
  match ts with
  | .nil =>
      obtain ⟨i, nm, ch⟩ := t
      refine ⟨⟨i, nm, p, c, c + 2 * sizeF ch + 1⟩, ?_, ?_⟩
      · simp [rowsF, rowsT]
      · show c + 2 * sizeF ch + 1 + 1 = c + 2 * sizeF (.cons (.node i nm ch) .nil)
        simp only [sizeF, sizeT_node]
        omega
  | .cons t2 ts2 =>
      obtain ⟨r, hr, hval⟩ := rowsF_attains p (c + 2 * sizeT t) t2 ts2
      refine ⟨r, ?_, ?_⟩
      · simp only [rowsF, List.mem_append]
        right
        simpa [rowsF] using hr
      · simp only [sizeF] at hval ⊢
        omega

theorem maxNright_rowsOf (F : Forest) : maxNright (rowsOf F) = 2 * sizeF F := by
  match F with
  | .nil => simp [rowsOf, rowsF, maxNright, sizeF]
  | .cons t ts =>
      apply le_antisymm
      · apply maxNright_le
        intro r hr
        have := rowsF_bounds none 1 (.cons t ts) r hr
        omega
      · obtain ⟨r, hr, hval⟩ := rowsF_attains none 1 t ts
        have hle := le_maxNright (rowsF none 1 (.cons t ts)) r hr
        show 2 * sizeF (.cons t ts) ≤ maxNright (rowsF none 1 (.cons t ts))
        omega

/-! ### Parent fields of numbered rows -/

mutual
theorem rowsT_parent_mem (p : Option Nat) (c : Nat) (t : Tree) :
    ∀ r ∈ rowsT p c t, r.parent_category_id = p ∨
      ∃ k, k ∈ idsT t ∧ r.parent_category_id = some k := by
  match t with
  | .node i nm ch =>
      intro r hr
      simp only [rowsT, List.mem_cons] at hr
      rcases hr with rfl | hr
      · exact Or.inl rfl
      · rcases rowsF_parent_mem_aux (some i) (c + 1) ch r hr with h | ⟨k, hk, hpk⟩
        · exact Or.inr ⟨i, by simp [idsT], h⟩
        · exact Or.inr ⟨k, by simp [idsT, hk], hpk⟩
theorem rowsF_parent_mem_aux (p : Option Nat) (c : Nat) (F : Forest) :
    ∀ r ∈ rowsF p c F, r.parent_category_id = p ∨
      ∃ k, k ∈ idsF F ∧ r.parent_category_id = some k := by
  match F with
  | .nil => intro r hr; simp [rowsF] at hr
  | .cons t ts =>
      intro r hr
      simp only [rowsF, List.mem_append] at hr
      rcases hr with hr | hr
      · rcases rowsT_parent_mem p c t r hr with h | ⟨k, hk, hpk⟩
        · exact Or.inl h
        · exact Or.inr ⟨k, by simp [idsF, hk], hpk⟩
      · rcases rowsF_parent_mem_aux p (c + 2 * sizeT t) ts r hr with h | ⟨k, hk, hpk⟩
        · exact Or.inl h
        · exact Or.inr ⟨k, by simp [idsF, hk], hpk⟩
end

theorem rowsF_parent_mem (p : Option Nat) (c : Nat) (F : Forest) :
    ∀ r ∈ rowsF p c F, r.parent_category_id = p ∨
      ∃ k, k ∈ idsF F ∧ r.parent_category_id = some k :=
  rowsF_parent_mem_aux p c F

/-! ### Helper lemmas for the PROMOTE transformation -/

mutual
theorem promoteT_inside (xid : Nat) (q : Option Nat) (xl xr c : Nat) (t : Tree)
    (P' : Option Nat) (hx : ¬ xid ∈ idsT t) (h1 : xl ≤ c)
    (h2 : c + 2 * sizeT t ≤ xr) :
    rowsT (if P' = some xid then q else P') c t
      = (rowsT P' (c + 1) t).map (promoteFix xid q xl xr) := by
  match t with
  | .node j nm ch =>
      have hj : xid ≠ j := by
        intro h
        exact hx (by simp [idsT, h])
      have hxch : ¬ xid ∈ idsF ch := fun h => hx (by simp [idsT, h])
      rw [sizeT_node] at h2
      have hhead : promoteFix xid q xl xr
            (⟨j, nm, P', c + 1, c + 1 + 2 * sizeF ch + 1⟩ : Cat)
          = ⟨j, nm, if P' = some xid then q else P', c, c + 2 * sizeF ch + 1⟩ := by
        simp only [promoteFix, promoteShift]
        rw [if_neg (show ¬ (xr < c + 1) by omega), if_pos (show xl < c + 1 by omega),
          if_neg (show ¬ (xr < c + 1 + 2 * sizeF ch + 1) by omega),
          if_pos (show xl < c + 1 + 2 * sizeF ch + 1 by omega)]
        congr 1
        omega
      have hch := promoteF_inside_aux xid q xl xr (c + 1) ch (some j)
        hxch (by omega) (by omega)
      rw [if_neg (show ¬ (some j = some xid) by simp [Ne.symm hj])] at hch
      simp only [rowsT, List.map_cons, hhead, List.cons.injEq]
      refine ⟨trivial, ?_⟩
      rw [← hch]
theorem promoteF_inside_aux (xid : Nat) (q : Option Nat)
    (xl xr c : Nat) (F : Forest) (P' : Option Nat)
    (hx : ¬ xid ∈ idsF F) (h1 : xl ≤ c) (h2 : c + 2 * sizeF F ≤ xr) :
    rowsF (if P' = some xid then q else P') c F
      = (rowsF P' (c + 1) F).map (promoteFix xid q xl xr) := by
  match F with
  | .nil => simp [rowsF]
  | .cons t ts =>
      have hxt : ¬ xid ∈ idsT t := fun h => hx (by simp [idsF, h])
      have hxts : ¬ xid ∈ idsF ts := fun h => hx (by simp [idsF, h])
      rw [show sizeF (.cons t ts) = sizeT t + sizeF ts from by simp [sizeF]] at h2
      simp only [rowsF, List.map_append]
      rw [← promoteT_inside xid q xl xr c t P' hxt h1 (by omega),
        show c + 1 + 2 * sizeT t = (c + 2 * sizeT t) + 1 by omega,
        ← promoteF_inside_aux xid q xl xr (c + 2 * sizeT t) ts P'
          hxts (by omega) (by omega)]
end

theorem promoteF_inside (xid : Nat) (q : Option Nat) (xl xr c : Nat)
    (F : Forest) (P' : Option Nat) (hx : ¬ xid ∈ idsF F) (h1 : xl ≤ c)
    (h2 : c + 2 * sizeF F ≤ xr) :
    rowsF (if P' = some xid then q else P') c F
      = (rowsF P' (c + 1) F).map (promoteFix xid q xl xr) :=
  promoteF_inside_aux xid q xl xr c F P' hx h1 h2

theorem rowsF_promoteFix_far (p : Option Nat) (c : Nat) (F : Forest)
    (xid : Nat) (q : Option Nat) (xl xr : Nat)
    (hxr : xr < c) (hc : 2 ≤ c) (hp : p ≠ some xid) (hx : ¬ xid ∈ idsF F) :
    (rowsF p c F).map (promoteFix xid q xl xr) = rowsF p (c - 2) F := by
  obtain ⟨c₀, rfl⟩ : ∃ c₀, c = c₀ + 2 := ⟨c - 2, by omega⟩
  rw [Nat.add_sub_cancel, rowsF_bump p c₀ 2 F, List.map_map]
  have heq : ∀ r ∈ rowsF p c₀ F,
      (promoteFix xid q xl xr ∘ bumpRow 2) r = id r := by
    intro r hr
    have hb := rowsF_bounds p c₀ F r hr
    have hpar : r.parent_category_id ≠ some xid := by
      rcases rowsF_parent_mem p c₀ F r hr with h | ⟨k, hk, hpk⟩
      · rw [h]; exact hp
      · rw [hpk]
        intro hcontra
        apply hx
        have : k = xid := by simpa using hcontra
        rw [← this]
        exact hk
    simp only [Function.comp_apply, promoteFix, promoteShift, bumpRow, id]
    rw [if_pos (show xr < r.nleft + 2 by omega),
      if_pos (show xr < r.nright + 2 by omega),
      if_neg hpar]
    congr 1
  rw [List.map_congr_left heq, List.map_id]

theorem map_promoteFix_id (l : List Cat) (xid : Nat) (q : Option Nat) (xl xr : Nat)
    (h : ∀ r ∈ l, r.nleft < xl ∧ r.nright < xl ∧ r.parent_category_id ≠ some xid)
    (hlr : xl ≤ xr) :
    l.map (promoteFix xid q xl xr) = l := by
  have heq : ∀ r ∈ l, promoteFix xid q xl xr r = id r := by
    intro r hr
    obtain ⟨h1, h2, h3⟩ := h r hr
    simp only [promoteFix, promoteShift, id]
    rw [if_neg (show ¬ (xr < r.nleft) by omega),
      if_neg (show ¬ (xl < r.nleft) by omega),
      if_neg (show ¬ (xr < r.nright) by omega),
      if_neg (show ¬ (xl < r.nright) by omega),
      if_neg h3]
  rw [List.map_congr_left heq, List.map_id]

mutual
theorem sizeT_promoteT (xid : Nat) (t : Tree)
    (hroot : (treeId t == xid) = false) (h : containsT xid t = true) :
    sizeT (promoteT xid t) + 1 = sizeT t := by
  match t with
  | .node i nm ch =>
      have hi : (i == xid) = false := by simpa [treeId] using hroot
      have hch : containsF xid ch = true := by
        simp only [containsT, Bool.or_eq_true] at h
        rcases h with h | h
        · rw [h] at hi; simp at hi
        · exact h
      simp only [promoteT, sizeT_node,
        ← sizeF_promoteF_aux xid ch hch]
      omega
theorem sizeF_promoteF_aux (xid : Nat) (F : Forest)
    (h : containsF xid F = true) :
    sizeF (promoteF xid F) + 1 = sizeF F := by
  match F with
  | .nil => simp [containsF] at h
  | .cons t ts =>
      obtain ⟨i, nm, ch⟩ := t
      by_cases hi : (i == xid) = true
      · rw [show promoteF xid (.cons (.node i nm ch) ts) = Forest.app ch ts from by
              simp [promoteF, treeId, hi, treeCh]]
        simp only [sizeF_app, sizeF, sizeT_node]
        omega
      · have hib : (i == xid) = false := Bool.not_eq_true _ ▸ hi
        by_cases hct : containsT xid (.node i nm ch) = true
        · rw [show promoteF xid (.cons (.node i nm ch) ts)
                = .cons (promoteT xid (.node i nm ch)) ts from by
                simp [promoteF, treeId, hib, hct]]
          simp only [sizeF]
          have := sizeT_promoteT xid (.node i nm ch) (by simp [treeId, hib]) hct
          omega
        · have hctf : containsT xid (.node i nm ch) = false :=
            Bool.not_eq_true _ ▸ hct
          have hts : containsF xid ts = true := by
            simp only [containsF, Bool.or_eq_true] at h
            rcases h with h | h
            · rw [h] at hctf; simp at hctf
            · exact h
          rw [show promoteF xid (.cons (.node i nm ch) ts)
              = .cons (.node i nm ch) (promoteF xid ts) from by
              simp [promoteF, treeId, hib, hctf]]
          simp only [sizeF]
          have := sizeF_promoteF_aux xid ts hts
          omega
end

theorem sizeF_promoteF (xid : Nat) (F : Forest) (h : containsF xid F = true) :
    sizeF (promoteF xid F) + 1 = sizeF F :=
  sizeF_promoteF_aux xid F h

/-! ### Simulation: PROMOTE deletion

The row-level transformation of `tryDelete` with the PROMOTE policy —
drop the target row, relocate both bounds of every survivor and reparent
the target's direct children to its former parent — produces exactly the
rows of the forest in which the target node is replaced by its children.
Distinctness of ids is required: the reparenting step keys on
`parent_category_id = xid`. -/

mutual
theorem promoteT_rows (xid : Nat) (p : Option Nat) (c : Nat) (t : Tree) (X : Cat)
    (hroot : (treeId t == xid) = false) (hnd : (idsT t).Nodup)
    (hpne : p ≠ some xid)
    (hfind : findCat (rowsT p c t) xid = some X) :
    rowsT p c (promoteT xid t) =
      ((rowsT p c t).filter (fun r => r.category_id != xid)).map
        (promoteFix xid X.parent_category_id X.nleft X.nright) := by
  match t with
  | .node i nm ch =>
      have hi : (i == xid) = false := by simpa [treeId] using hroot
      have hine : i ≠ xid := by simpa using hi
      rw [findCat_rowsT_node, if_neg (by simp [hi])] at hfind
      have hXmem := findCat_some _ _ _ hfind
      have hXb := rowsF_bounds (some i) (c + 1) ch X hXmem.1
      have hndch : (idsF ch).Nodup := by
        simp only [idsT, List.nodup_cons] at hnd
        exact hnd.2
      have hcf : containsF xid ch = true := by
        rw [containsF_iff]
        have := mem_rowsF_id (some i) (c + 1) ch X hXmem.1
        rw [← hXmem.2]
        exact this
      have IH := promoteF_rows_aux xid (some i) (c + 1) ch X hndch
        (by simpa using hine) hfind
      have hhead : promoteFix xid X.parent_category_id X.nleft X.nright
            (⟨i, nm, p, c, c + 2 * sizeF ch + 1⟩ : Cat)
          = ⟨i, nm, p, c, c + 2 * sizeF ch + 1 - 2⟩ := by
        simp only [promoteFix, promoteShift]
        rw [if_neg (show ¬ (X.nright < c) by omega),
          if_neg (show ¬ (X.nleft < c) by omega),
          if_pos (show X.nright < c + 2 * sizeF ch + 1 by omega),
          if_neg hpne]
      have hsz := sizeF_promoteF xid ch hcf
      simp only [promoteT, rowsT, IH]
      rw [List.filter_cons_of_pos (by simpa using hine), List.map_cons, hhead,
        List.cons.injEq]
      refine ⟨by congr 1; omega, rfl⟩
theorem promoteF_rows_aux (xid : Nat) (p : Option Nat) (c : Nat)
    (F : Forest) (X : Cat) (hnd : (idsF F).Nodup) (hpne : p ≠ some xid)
    (hfind : findCat (rowsF p c F) xid = some X) :
    rowsF p c (promoteF xid F) =
      ((rowsF p c F).filter (fun r => r.category_id != xid)).map
        (promoteFix xid X.parent_category_id X.nleft X.nright) := by
  match F with
  | .nil => simp [rowsF, findCat] at hfind
  | .cons t ts =>
      obtain ⟨i, nm, ch⟩ := t
      have hndsplit : (idsT (.node i nm ch)).Nodup ∧ (idsF ts).Nodup ∧
          (idsT (.node i nm ch)).Disjoint (idsF ts) := by
        rw [show idsF (.cons (.node i nm ch) ts)
            = idsT (.node i nm ch) ++ idsF ts from by simp [idsF]] at hnd
        exact List.nodup_append.mp hnd
      by_cases hi : (i == xid) = true
      · have hieq : i = xid := by simpa using hi
        have hX : X = ⟨i, nm, p, c, c + 2 * sizeF ch + 1⟩ := by
          rw [rowsF, findCat_append, findCat_rowsT_node, if_pos hi,
            Option.or_some] at hfind
          exact (Option.some.inj hfind).symm
        have hxl : X.nleft = c := by rw [hX]
        have hxr : X.nright = c + 2 * sizeF ch + 1 := by rw [hX]
        have hxp : X.parent_category_id = p := by rw [hX]
        have hxch : ¬ xid ∈ idsF ch := by
          have := hndsplit.1
          simp only [idsT, List.nodup_cons] at this
          rw [← hieq]
          exact this.1
        have hxts : ¬ xid ∈ idsF ts := by
          intro h
          exact hndsplit.2.2 (by simp [idsT, hieq]) h
        have hchpart : rowsF p c ch
            = (rowsF (some i) (c + 1) ch).map
                (promoteFix xid X.parent_category_id X.nleft X.nright) := by
          have := promoteF_inside xid X.parent_category_id X.nleft X.nright c ch
            (some xid) hxch (by omega) (by omega)
          rw [if_pos rfl, hxp] at this
          rw [this, hieq, hxp]
        have htspart : (rowsF p (c + 2 * sizeT (.node i nm ch)) ts).map
            (promoteFix xid X.parent_category_id X.nleft X.nright)
            = rowsF p (c + 2 * sizeF ch) ts := by
          rw [rowsF_promoteFix_far p _ ts xid X.parent_category_id X.nleft X.nright
            (by rw [sizeT_node]; omega) (by rw [sizeT_node]; omega) hpne hxts]
          congr 1
          rw [sizeT_node]
          omega
        have hfiltX : ((⟨i, nm, p, c, c + 2 * sizeF ch + 1⟩ : Cat).category_id
            != xid) = false := by
          simp [hieq]
        have hkeepch : (rowsF (some i) (c + 1) ch).filter
            (fun r => r.category_id != xid) = rowsF (some i) (c + 1) ch := by
          rw [List.filter_eq_self]
          intro r hr
          have := mem_rowsF_id (some i) (c + 1) ch r hr
          simp only [bne_iff_ne, ne_eq]
          intro hcontra
          rw [hcontra] at this
          exact hxch this
        have hkeepts : (rowsF p (c + 2 * sizeT (.node i nm ch)) ts).filter
            (fun r => r.category_id != xid)
            = rowsF p (c + 2 * sizeT (.node i nm ch)) ts := by
          rw [List.filter_eq_self]
          intro r hr
          have := mem_rowsF_id p (c + 2 * sizeT (.node i nm ch)) ts r hr
          simp only [bne_iff_ne, ne_eq]
          intro hcontra
          rw [hcontra] at this
          exact hxts this
        rw [show promoteF xid (.cons (.node i nm ch) ts) = Forest.app ch ts from by
              simp [promoteF, treeId, hi, treeCh]]
        rw [rowsF_app, rowsF, List.filter_append,
          show rowsT p c (.node i nm ch)
            = (⟨i, nm, p, c, c + 2 * sizeF ch + 1⟩ : Cat)
              :: rowsF (some i) (c + 1) ch from by simp [rowsT],
          List.filter_cons_of_neg (by simp [hfiltX]), hkeepch, hkeepts,
          List.map_append, ← hchpart, htspart]
      · have hib : (i == xid) = false := Bool.not_eq_true _ ▸ hi
        have hine : i ≠ xid := by simpa using hib
        by_cases hct : containsT xid (.node i nm ch) = true
        · obtain ⟨X', hX'⟩ := Option.isSome_iff_exists.mp
            (findCat_rowsT_isSome p c (.node i nm ch) xid hct)
          have hXX : X' = X := by
            rw [rowsF, findCat_append, hX', Option.or_some] at hfind
            exact Option.some.inj hfind
          rw [hXX] at hX'
          have hXb := rowsT_bounds p c (.node i nm ch) X (findCat_some _ _ _ hX').1
          have hxts : ¬ xid ∈ idsF ts := by
            intro h
            exact hndsplit.2.2 ((containsT_iff xid (.node i nm ch)).mp hct) h
          have IH := promoteT_rows xid p c (.node i nm ch) X
            (by simp [treeId, hib]) hndsplit.1 hpne hX'
          have hsz := sizeT_promoteT xid (.node i nm ch) (by simp [treeId, hib]) hct
          have htspart : (rowsF p (c + 2 * sizeT (.node i nm ch)) ts).map
              (promoteFix xid X.parent_category_id X.nleft X.nright)
              = rowsF p (c + 2 * sizeT (promoteT xid (.node i nm ch))) ts := by
            rw [rowsF_promoteFix_far p _ ts xid X.parent_category_id X.nleft
              X.nright (by omega) (by omega) hpne hxts]
            congr 1
            omega
          have hkeepts : (rowsF p (c + 2 * sizeT (.node i nm ch)) ts).filter
              (fun r => r.category_id != xid)
              = rowsF p (c + 2 * sizeT (.node i nm ch)) ts := by
            rw [List.filter_eq_self]
            intro r hr
            have := mem_rowsF_id p (c + 2 * sizeT (.node i nm ch)) ts r hr
            simp only [bne_iff_ne, ne_eq]
            intro hcontra
            rw [hcontra] at this
            exact hxts this
          rw [show promoteF xid (.cons (.node i nm ch) ts)
                = .cons (promoteT xid (.node i nm ch)) ts from by
                simp [promoteF, treeId, hib, hct]]
          rw [rowsF, rowsF, List.filter_append, hkeepts, List.map_append,
            IH, htspart]
        · have hctf : containsT xid (.node i nm ch) = false :=
            Bool.not_eq_true _ ▸ hct
          have hnone := findCat_rowsT_none p c (.node i nm ch) xid hctf
          have hfind' : findCat (rowsF p (c + 2 * sizeT (.node i nm ch)) ts) xid
              = some X := by
            rw [rowsF, findCat_append, hnone, Option.none_or] at hfind
            exact hfind
          have hXmem := findCat_some _ _ _ hfind'
          have hXb := rowsF_bounds p (c + 2 * sizeT (.node i nm ch)) ts X hXmem.1
          have hxt : ¬ xid ∈ idsT (.node i nm ch) := by
            rw [← containsT_iff]
            simp [hctf]
          have IH := promoteF_rows_aux xid p
            (c + 2 * sizeT (.node i nm ch)) ts X hndsplit.2.1 hpne hfind'
          have hkeept : (rowsT p c (.node i nm ch)).filter
              (fun r => r.category_id != xid) = rowsT p c (.node i nm ch) := by
            rw [List.filter_eq_self]
            intro r hr
            have := mem_rowsT_id p c (.node i nm ch) r hr
            simp only [bne_iff_ne, ne_eq]
            intro hcontra
            rw [hcontra] at this
            exact hxt this
          have hidt : (rowsT p c (.node i nm ch)).map
              (promoteFix xid X.parent_category_id X.nleft X.nright)
              = rowsT p c (.node i nm ch) := by
            apply map_promoteFix_id
            · intro r hr
              have hb := rowsT_bounds p c (.node i nm ch) r hr
              refine ⟨by omega, by omega, ?_⟩
              rcases rowsT_parent_mem p c (.node i nm ch) r hr with h | ⟨k, hk, hpk⟩
              · rw [h]; exact hpne
              · rw [hpk]
                intro hcontra
                apply hxt
                have : k = xid := by simpa using hcontra
                rw [← this]
                exact hk
            · omega
          rw [show promoteF xid (.cons (.node i nm ch) ts)
              = .cons (.node i nm ch) (promoteF xid ts) from by
              simp [promoteF, treeId, hib, hctf]]
          rw [rowsF, rowsF, List.filter_append, hkeept, List.map_append,
            hidt, IH]
end

theorem promoteF_rows (xid : Nat) (p : Option Nat) (c : Nat)
    (F : Forest) (X : Cat) (hnd : (idsF F).Nodup) (hpne : p ≠ some xid)
    (hfind : findCat (rowsF p c F) xid = some X) :
    rowsF p c (promoteF xid F) =
      ((rowsF p c F).filter (fun r => r.category_id != xid)).map
        (promoteFix xid X.parent_category_id X.nleft X.nright) :=
  promoteF_rows_aux xid p c F X hnd hpne hfind

/-! ### Ids of the modified forests, up to permutation -/

mutual
theorem idsT_attachT (pid : Nat) (u : Tree) (t : Tree)
    (h : containsT pid t = true) :
    (idsT (attachT pid u t)).Perm (idsT t ++ idsT u) := by
  match t with
  | .node i nm ch =>
      by_cases hi : (i == pid) = true
      · rw [show attachT pid u (.node i nm ch) = .node i nm (ch.snoc u) from by
              simp [attachT, hi]]
        rw [show idsT (.node i nm (ch.snoc u)) = i :: (idsF ch ++ idsT u) from by
              simp [idsT, Forest.snoc, idsF_app, idsF]]
        rw [show idsT (.node i nm ch) ++ idsT u = i :: (idsF ch ++ idsT u) from by
              simp [idsT]]
      · have hch : containsF pid ch = true := by
          simp only [containsT, Bool.or_eq_true] at h
          rcases h with h | h
          · exact absurd h hi
          · exact h
        rw [show attachT pid u (.node i nm ch) = .node i nm (attachF pid u ch)
              from by simp [attachT, hi]]
        rw [show idsT (.node i nm (attachF pid u ch))
              = i :: idsF (attachF pid u ch) from by simp [idsT]]
        rw [show idsT (.node i nm ch) ++ idsT u = i :: (idsF ch ++ idsT u) from by
              simp [idsT]]
        exact (idsF_attachF_aux pid u ch hch).cons i
theorem idsF_attachF_aux (pid : Nat) (u : Tree) (F : Forest)
    (h : containsF pid F = true) :
    (idsF (attachF pid u F)).Perm (idsF F ++ idsT u) := by
  match F with
  | .nil => simp [containsF] at h
  | .cons t ts =>
      by_cases ht : containsT pid t = true
      · rw [show attachF pid u (.cons t ts) = .cons (attachT pid u t) ts from by
              simp [attachF, ht]]
        rw [show idsF (.cons (attachT pid u t) ts)
              = idsT (attachT pid u t) ++ idsF ts from by simp [idsF]]
        rw [show idsF (.cons t ts) = idsT t ++ idsF ts from by simp [idsF]]
        refine ((idsT_attachT pid u t ht).append_right (idsF ts)).trans ?_
        rw [List.append_assoc, List.append_assoc]
        exact (List.perm_append_comm).append_left (idsT t)
      · have hts : containsF pid ts = true := by
          simp only [containsF, Bool.or_eq_true] at h
          rcases h with h | h
          · exact absurd h ht
          · exact h
        rw [show attachF pid u (.cons t ts) = .cons t (attachF pid u ts) from by
              simp [attachF, ht]]
        rw [show idsF (.cons t (attachF pid u ts))
              = idsT t ++ idsF (attachF pid u ts) from by simp [idsF]]
        rw [show idsF (.cons t ts) = idsT t ++ idsF ts from by simp [idsF]]
        rw [List.append_assoc]
        exact (idsF_attachF_aux pid u ts hts).append_left (idsT t)
end

theorem idsF_attachF (pid : Nat) (u : Tree) (F : Forest)
    (h : containsF pid F = true) :
    (idsF (attachF pid u F)).Perm (idsF F ++ idsT u) :=
  idsF_attachF_aux pid u F h

mutual
theorem idsT_removeT (xid : Nat) (t : Tree)
    (hroot : (treeId t == xid) = false) (h : containsT xid t = true) :
    ∃ u, subtreeT xid t = some u ∧
      (idsT t).Perm (idsT u ++ idsT (removeT xid t)) := by
  match t with
  | .node i nm ch =>
      have hi : (i == xid) = false := by simpa [treeId] using hroot
      have hch : containsF xid ch = true := by
        simp only [containsT, Bool.or_eq_true] at h
        rcases h with h | h
        · rw [h] at hi; simp at hi
        · exact h
      obtain ⟨u, hsub, hperm⟩ := idsF_removeF_aux xid ch hch
      refine ⟨u, by simp [subtreeT, hi, hsub], ?_⟩
      rw [show idsT (.node i nm ch) = i :: idsF ch from by simp [idsT]]
      rw [show removeT xid (.node i nm ch) = .node i nm (removeF xid ch) from by
            simp [removeT]]
      rw [show idsT (.node i nm (removeF xid ch)) = i :: idsF (removeF xid ch)
            from by simp [idsT]]
      exact (hperm.cons i).trans List.perm_middle.symm
theorem idsF_removeF_aux (xid : Nat) (F : Forest)
    (h : containsF xid F = true) :
    ∃ u, subtreeF xid F = some u ∧
      (idsF F).Perm (idsT u ++ idsF (removeF xid F)) := by
  match F with
  | .nil => simp [containsF] at h
  | .cons t ts =>
      obtain ⟨i, nm, ch⟩ := t
      by_cases hi : (i == xid) = true
      · refine ⟨.node i nm ch, by simp [subtreeF, subtreeT, hi], ?_⟩
        rw [show removeF xid (.cons (.node i nm ch) ts) = ts from by
              simp [removeF, treeId, hi]]
        rw [show idsF (.cons (.node i nm ch) ts)
              = idsT (.node i nm ch) ++ idsF ts from by simp [idsF]]
      · have hib : (i == xid) = false := Bool.not_eq_true _ ▸ hi
        by_cases hct : containsT xid (.node i nm ch) = true
        · obtain ⟨u, hsub, hperm⟩ := idsT_removeT xid (.node i nm ch)
            (by simp [treeId, hib]) hct
          refine ⟨u, by simp [subtreeF, hsub], ?_⟩
          rw [show removeF xid (.cons (.node i nm ch) ts)
                = .cons (removeT xid (.node i nm ch)) ts from by
                simp [removeF, treeId, hib, hct]]
          rw [show idsF (.cons (.node i nm ch) ts)
                = idsT (.node i nm ch) ++ idsF ts from by simp [idsF]]
          rw [show idsF (.cons (removeT xid (.node i nm ch)) ts)
                = idsT (removeT xid (.node i nm ch)) ++ idsF ts from by
                simp [idsF]]
          rw [← List.append_assoc]
          exact hperm.append_right (idsF ts)
        · have hctf : containsT xid (.node i nm ch) = false :=
            Bool.not_eq_true _ ▸ hct
          have hts : containsF xid ts = true := by
            simp only [containsF, Bool.or_eq_true] at h
            rcases h with h | h
            · rw [h] at hctf; simp at hctf
            · exact h
          obtain ⟨u, hsub, hperm⟩ := idsF_removeF_aux xid ts hts
          refine ⟨u, by simp [subtreeF, subtreeT_none xid _ hctf, hsub], ?_⟩
          rw [show removeF xid (.cons (.node i nm ch) ts)
                = .cons (.node i nm ch) (removeF xid ts) from by
                simp [removeF, treeId, hib, hctf]]
          rw [show idsF (.cons (.node i nm ch) ts)
                = idsT (.node i nm ch) ++ idsF ts from by simp [idsF]]
          rw [show idsF (.cons (.node i nm ch) (removeF xid ts))
                = idsT (.node i nm ch) ++ idsF (removeF xid ts) from by
                simp [idsF]]
          refine (hperm.append_left (idsT (.node i nm ch))).trans ?_
          rw [← List.append_assoc, ← List.append_assoc]
          exact (List.perm_append_comm).append_right _
end

theorem idsF_removeF (xid : Nat) (F : Forest) (h : containsF xid F = true) :
    ∃ u, subtreeF xid F = some u ∧
      (idsF F).Perm (idsT u ++ idsF (removeF xid F)) :=
  idsF_removeF_aux xid F h

mutual
theorem idsT_promoteT (xid : Nat) (t : Tree)
    (hroot : (treeId t == xid) = false) (h : containsT xid t = true) :
    (idsT t).Perm (xid :: idsT (promoteT xid t)) := by
  match t with
  | .node i nm ch =>
      have hi : (i == xid) = false := by simpa [treeId] using hroot
      have hch : containsF xid ch = true := by
        simp only [containsT, Bool.or_eq_true] at h
        rcases h with h | h
        · rw [h] at hi; simp at hi
        · exact h
      rw [show idsT (.node i nm ch) = i :: idsF ch from by simp [idsT]]
      rw [show promoteT xid (.node i nm ch) = .node i nm (promoteF xid ch)
            from by simp [promoteT]]
      rw [show idsT (.node i nm (promoteF xid ch)) = i :: idsF (promoteF xid ch)
            from by simp [idsT]]
      exact ((idsF_promoteF_aux xid ch hch).cons i).trans
        (List.Perm.swap xid i _)
theorem idsF_promoteF_aux (xid : Nat) (F : Forest)
    (h : containsF xid F = true) :
    (idsF F).Perm (xid :: idsF (promoteF xid F)) := by
  match F with
  | .nil => simp [containsF] at h
  | .cons t ts =>
      obtain ⟨i, nm, ch⟩ := t
      by_cases hi : (i == xid) = true
      · have hieq : i = xid := by simpa using hi
        rw [show promoteF xid (.cons (.node i nm ch) ts) = Forest.app ch ts
              from by simp [promoteF, treeId, hi, treeCh]]
        rw [show idsF (.cons (.node i nm ch) ts)
              = i :: (idsF ch ++ idsF ts) from by simp [idsF, idsT]]
        rw [idsF_app, hieq]
      · have hib : (i == xid) = false := Bool.not_eq_true _ ▸ hi
        by_cases hct : containsT xid (.node i nm ch) = true
        · have hperm := idsT_promoteT xid (.node i nm ch)
            (by simp [treeId, hib]) hct
          rw [show promoteF xid (.cons (.node i nm ch) ts)
                = .cons (promoteT xid (.node i nm ch)) ts from by
                simp [promoteF, treeId, hib, hct]]
          rw [show idsF (.cons (.node i nm ch) ts)
                = idsT (.node i nm ch) ++ idsF ts from by simp [idsF]]
          rw [show idsF (.cons (promoteT xid (.node i nm ch)) ts)
                = idsT (promoteT xid (.node i nm ch)) ++ idsF ts from by
                simp [idsF]]
          exact (hperm.append_right (idsF ts)).trans (by rw [List.cons_append])
        · have hctf : containsT xid (.node i nm ch) = false :=
            Bool.not_eq_true _ ▸ hct
          have hts : containsF xid ts = true := by
            simp only [containsF, Bool.or_eq_true] at h
            rcases h with h | h
            · rw [h] at hctf; simp at hctf
            · exact h
          have hperm := idsF_promoteF_aux xid ts hts
          rw [show promoteF xid (.cons (.node i nm ch) ts)
                = .cons (.node i nm ch) (promoteF xid ts) from by
                simp [promoteF, treeId, hib, hctf]]
          rw [show idsF (.cons (.node i nm ch) ts)
                = idsT (.node i nm ch) ++ idsF ts from by simp [idsF]]
          rw [show idsF (.cons (.node i nm ch) (promoteF xid ts))
                = idsT (.node i nm ch) ++ idsF (promoteF xid ts) from by
                simp [idsF]]
          exact (hperm.append_left _).trans List.perm_middle
end

theorem idsF_promoteF (xid : Nat) (F : Forest) (h : containsF xid F = true) :
    (idsF F).Perm (xid :: idsF (promoteF xid F)) :=
  idsF_promoteF_aux xid F h

/-! ### Relocation of a block and lookup through filter-and-map -/

/-- Relocate a row's interval from a numbering starting at `c` to one
starting at `c'`. -/
def relocRow (c c' : Nat) (r : Cat) : Cat :=
  { r with nleft := r.nleft - c + c', nright := r.nright - c + c' }

theorem rowsF_reloc (p : Option Nat) (c c' : Nat) (F : Forest) :
    (rowsF p c F).map (relocRow c c') = rowsF p c' F := by
  rcases Nat.le_total c c' with h | h
  · obtain ⟨d, rfl⟩ : ∃ d, c' = c + d := ⟨c' - c, by omega⟩
    rw [rowsF_bump p c d F]
    apply List.map_congr_left
    intro r hr
    have := rowsF_bounds p c F r hr
    simp only [relocRow, bumpRow]
    congr 1 <;> omega
  · obtain ⟨d, rfl⟩ : ∃ d, c = c' + d := ⟨c - c', by omega⟩
    rw [rowsF_bump p c' d F, List.map_map]
    have heq : ∀ r ∈ rowsF p c' F, (relocRow (c' + d) c' ∘ bumpRow d) r = id r := by
      intro r hr
      have := rowsF_bounds p c' F r hr
      simp only [Function.comp_apply, relocRow, bumpRow, id]
      congr 1 <;> omega
    rw [List.map_congr_left heq, List.map_id]

theorem moveBlock_rowsT (u : Tree) (q : Option Nat) (xl pos yid xid : Nat)
    (hid : treeId u = xid) (hnd : ¬ xid ∈ idsF (treeCh u)) :
    (rowsT q xl u).map (moveBlock pos xl yid xid) = rowsT (some yid) pos u := by
  obtain ⟨i, nmu, chu⟩ := u
  have hieq : i = xid := by simpa [treeId] using hid
  simp only [treeCh] at hnd
  have hhead : moveBlock pos xl yid xid
        (⟨i, nmu, q, xl, xl + 2 * sizeF chu + 1⟩ : Cat)
      = ⟨i, nmu, some yid, pos, pos + 2 * sizeF chu + 1⟩ := by
    simp only [moveBlock, if_pos hieq]
    congr 1 <;> omega
  have hch : (rowsF (some i) (xl + 1) chu).map (moveBlock pos xl yid xid)
      = rowsF (some i) (pos + 1) chu := by
    rw [← rowsF_reloc (some i) (xl + 1) (pos + 1) chu]
    apply List.map_congr_left
    intro r hr
    have hb := rowsF_bounds (some i) (xl + 1) chu r hr
    have hidr : r.category_id ≠ xid := by
      intro hcontra
      apply hnd
      rw [← hcontra]
      exact mem_rowsF_id (some i) (xl + 1) chu r hr
    simp only [moveBlock, relocRow, if_neg hidr]
    congr 1 <;> omega
  simp only [rowsT, List.map_cons, hhead, hch]

theorem findCat_filter_map (s : List Cat) (yid : Nat) (Y : Cat) (f : Cat → Cat)
    (pred : Cat → Bool) (hf : ∀ r, (f r).category_id = r.category_id)
    (hfind : findCat s yid = some Y) (hpred : pred Y = true) :
    findCat ((s.filter pred).map f) yid = some (f Y) := by
  induction s with
  | nil => simp [findCat] at hfind
  | cons a l ih =>
      by_cases ha : (a.category_id == yid) = true
      · simp only [findCat] at hfind
        rw [@List.find?_cons_of_pos _ (fun c => c.category_id == yid) a l ha]
          at hfind
        have haY : a = Y := Option.some.inj hfind
        subst haY
        rw [List.filter_cons_of_pos hpred, List.map_cons]
        simp only [findCat]
        rw [@List.find?_cons_of_pos _ (fun c => c.category_id == yid) (f a) _
              (by show ((f a).category_id == yid) = true
                  rw [hf a]
                  exact ha)]
      · simp only [findCat] at hfind
        rw [@List.find?_cons_of_neg _ (fun c => c.category_id == yid) a l ha]
          at hfind
        by_cases hpa : pred a = true
        · rw [List.filter_cons_of_pos hpa, List.map_cons]
          simp only [findCat]
          rw [@List.find?_cons_of_neg _ (fun c => c.category_id == yid) (f a) _
                (by show ¬ ((f a).category_id == yid) = true
                    rw [hf a]
                    exact ha)]
          exact ih hfind
        · rw [List.filter_cons_of_neg hpa]
          exact ih hfind

theorem shiftIns_eq_openGap (pr : Nat) : shiftIns pr = openGap pr 2 := rfl

/-! ### Simulation of the store operations on whole tenant states -/

theorem createCategory_sim (F : Forest) (newId : Nat) (nm : String)
    (parent : Option Nat) (s' : List Cat)
    (hnd : (idsF F).Nodup) (hfresh : ¬ newId ∈ idsF F)
    (hok : createCategory (rowsOf F) newId nm parent = .ok s') :
    ∃ F' : Forest, (idsF F').Nodup ∧ s' = rowsOf F' := by
  simp only [createCategory] at hok
  split at hok
  · exact absurd hok (by simp)
  cases parent with
  | none =>
      simp only [allocInsert] at hok
      refine ⟨F.snoc (.node newId nm .nil), ?_, ?_⟩
      · rw [show idsF (F.snoc (.node newId nm .nil)) = idsF F ++ [newId] from by
              simp [Forest.snoc, idsF_app, idsF, idsT]]
        rw [List.nodup_append]
        exact ⟨hnd, List.nodup_singleton newId, by
          intro x hx hx'
          rw [List.mem_singleton] at hx'
          rw [hx'] at hx
          exact hfresh hx⟩
      · have hs' : rowsOf F ++
            [(⟨newId, nm, none, maxNright (rowsOf F) + 1,
              maxNright (rowsOf F) + 2⟩ : Cat)] = s' := by
          simpa using hok
        rw [← hs', maxNright_rowsOf]
        show _ = rowsF none 1 (F.snoc (.node newId nm .nil))
        rw [rowsF_snoc]
        rw [show rowsT none (1 + 2 * sizeF F) (.node newId nm .nil)
              = [⟨newId, nm, none, 1 + 2 * sizeF F, 1 + 2 * sizeF F + 1⟩] from by
              simp [rowsT, rowsF, sizeF]]
        rw [show (1 : Nat) + 2 * sizeF F = 2 * sizeF F + 1 by omega]
        rfl
  | some pid =>
      simp only [allocInsert] at hok
      split at hok
      · exact absurd hok (by simp)
      rename_i p hfp
      simp only [Except.ok.injEq] at hok
      have hcf : containsF pid F = true := by
        rw [containsF_iff]
        have hm := findCat_some _ _ _ hfp
        rw [← hm.2]
        exact mem_rowsF_id none 1 F p hm.1
      refine ⟨attachF pid (.node newId nm .nil) F, ?_, ?_⟩
      · have hperm := idsF_attachF pid (.node newId nm .nil) F hcf
        apply hperm.symm.nodup
        rw [show idsT (.node newId nm .nil) = [newId] from by simp [idsT, idsF]]
        rw [List.nodup_append]
        exact ⟨hnd, List.nodup_singleton newId, by
          intro x hx hx'
          rw [List.mem_singleton] at hx'
          rw [hx'] at hx
          exact hfresh hx⟩
      · rw [← hok]
        show _ = rowsF none 1 (attachF pid (.node newId nm .nil) F)
        rw [attachF_rows pid (.node newId nm .nil) none 1 F p hfp]
        rw [show (2 * sizeT (.node newId nm .nil)) = 2 from by
              simp [sizeT_node, sizeF]]
        rw [show rowsT (some pid) p.nright (.node newId nm .nil)
              = [⟨newId, nm, some pid, p.nright, p.nright + 1⟩] from by
              simp [rowsT, rowsF, sizeF]]
        rw [shiftIns_eq_openGap, List.append_assoc, List.singleton_append]
        rfl

theorem tryDelete_sim (F : Forest) (xid : Nat) (pol : Option Policy)
    (s' : List Cat) (hnd : (idsF F).Nodup)
    (hok : tryDelete (rowsOf F) xid pol = .ok s') :
    ∃ F' : Forest, (idsF F').Nodup ∧ s' = rowsOf F' := by
  simp only [tryDelete] at hok
  split at hok
  · exact absurd hok (by simp)
  rename_i X hfX
  have hcf : containsF xid F = true := by
    rw [containsF_iff]
    have hm := findCat_some _ _ _ hfX
    rw [← hm.2]
    exact mem_rowsF_id none 1 F X hm.1
  have hremove : ∃ F' : Forest, (idsF F').Nodup ∧
      ((rowsOf F).filter (fun c => ¬ inSub X.nleft X.nright c)).map
        (closeGap X.nright (X.nright - X.nleft + 1)) = rowsOf F' := by
    refine ⟨removeF xid F, ?_, ?_⟩
    · obtain ⟨u, hsub, hperm⟩ := idsF_removeF xid F hcf
      exact ((hperm.nodup hnd).of_append_right)
    · exact (removeF_rows xid none 1 F X hfX).1.symm
  split at hok
  · split at hok
    · exact absurd hok (by simp)
    · simp only [Except.ok.injEq] at hok
      rw [← hok]
      exact hremove
  · simp only [Except.ok.injEq] at hok
    rw [← hok]
    exact hremove
  · simp only [Except.ok.injEq] at hok
    refine ⟨promoteF xid F, ?_, ?_⟩
    · have hperm := idsF_promoteF xid F hcf
      exact (hperm.nodup hnd).of_cons
    · rw [← hok]
      exact (promoteF_rows xid none 1 F X hnd (by simp) hfX).symm

theorem tryMove_sim (F : Forest) (xid yid : Nat) (s' : List Cat)
    (hnd : (idsF F).Nodup)
    (hok : tryMove (rowsOf F) xid yid = .ok s') :
    ∃ F' : Forest, (idsF F').Nodup ∧ s' = rowsOf F' := by
  simp only [tryMove] at hok
  split at hok
  · exact absurd hok (by simp)
  rename_i X hfX
  split at hok
  · exact absurd hok (by simp)
  rename_i Y hfY
  split at hok
  · exact absurd hok (by simp)
  rename_i hcyc
  simp only [Except.ok.injEq] at hok
  have hcf : containsF xid F = true := by
    rw [containsF_iff]
    have hm := findCat_some _ _ _ hfX
    rw [← hm.2]
    exact mem_rowsF_id none 1 F X hm.1
  obtain ⟨u', hsub', hpermF⟩ := idsF_removeF xid F hcf
  obtain ⟨u, q, hsub, htid, hsz, hblock, hconsX⟩ := subtreeF_block xid none 1 F X hfX
  have hrem := (removeF_rows xid none 1 F X hfX).1
  have huu : u' = u := by
    rw [hsub'] at hsub
    exact Option.some.inj hsub
  rw [huu] at hpermF
  have hndA : (idsT u ++ idsF (removeF xid F)).Nodup := hpermF.nodup hnd
  have hndu : (idsT u).Nodup := hndA.of_append_left
  have hnd₁ : (idsF (removeF xid F)).Nodup := hndA.of_append_right
  have hndu' : ¬ xid ∈ idsF (treeCh u) := by
    obtain ⟨i, nmu, chu⟩ := u
    have : i = xid := by simpa [treeId] using htid
    subst this
    simp only [idsT, List.nodup_cons] at hndu
    simpa [treeCh] using hndu.1
  have hfY₁ : findCat (rowsF none 1 (removeF xid F)) yid
      = some (closeGap X.nright (X.nright - X.nleft + 1) Y) := by
    rw [hrem]
    exact findCat_filter_map (rowsOf F) yid Y _ _ (fun r => rfl) hfY
      (by simpa using hcyc)
  have hatt := attachF_rows yid u none 1 (removeF xid F)
    (closeGap X.nright (X.nright - X.nleft + 1) Y) hfY₁
  have hXb := rowsF_bounds none 1 F X (findCat_some _ _ _ hfX).1
  have hw : 2 * sizeT u = X.nright - X.nleft + 1 := by omega
  have hpos : (closeGap X.nright (X.nright - X.nleft + 1) Y).nright
      = if X.nright < Y.nright
        then Y.nright - (X.nright - X.nleft + 1) else Y.nright := rfl
  refine ⟨attachF yid u (removeF xid F), ?_, ?_⟩
  · have hcfy : containsF yid (removeF xid F) = true := by
      rw [containsF_iff]
      have hm := findCat_some _ _ _ hfY₁
      rw [← hm.2]
      exact mem_rowsF_id none 1 (removeF xid F) _ hm.1
    have hperm₂ := idsF_attachF yid u (removeF xid F) hcfy
    apply hperm₂.symm.nodup
    exact (hpermF.trans List.perm_append_comm).nodup hnd
  · rw [← hok]
    show _ = rowsF none 1 (attachF yid u (removeF xid F))
    simp only [rowsOf]
    rw [hatt, hpos, hw, hrem]
    simp only [List.map_map]
    rw [← hblock, moveBlock_rowsT u q X.nleft
      (if X.nright < Y.nright then Y.nright - (X.nright - X.nleft + 1)
       else Y.nright) yid xid htid hndu']
    rfl

/-! ### Reachable tenant states -/

/-- `newId` does not occur among the tenant's rows (the fresh id the
database's autoincrement hands to a new row). -/
def freshId (s : List Cat) (newId : Nat) : Prop :=
  ∀ c ∈ s, c.category_id ≠ newId

instance (s : List Cat) (newId : Nat) : Decidable (freshId s newId) := by
  unfold freshId; infer_instance

/-- Modelled from the spec: the states of one tenant's category table that
the Hierarchy Store can produce — starting from an empty tenant and
applying successful `createCategory` (with a fresh autoincremented id),
`tryMove` and `tryDelete` transactions (spec sections 4.1-4.2). -/
inductive Reach : List Cat → Prop where
  | init : Reach []
  | create (s s' : List Cat) (newId : Nat) (nm : String) (parent : Option Nat)
      (h : Reach s) (hfresh : freshId s newId)
      (hok : createCategory s newId nm parent = .ok s') : Reach s'
  | move (s s' : List Cat) (xid yid : Nat) (h : Reach s)
      (hok : tryMove s xid yid = .ok s') : Reach s'
  | delete (s s' : List Cat) (xid : Nat) (pol : Option Policy) (h : Reach s)
      (hok : tryDelete s xid pol = .ok s') : Reach s'

/-- Every reachable tenant state is the canonical numbering of some forest
with pairwise-distinct ids: the central structure theorem. -/
theorem reach_forest (s : List Cat) (h : Reach s) :
    ∃ F : Forest, (idsF F).Nodup ∧ s = rowsOf F := by
  induction h with
  | init => exact ⟨.nil, by simp [idsF], rfl⟩
  | create s s' newId nm parent h hfresh hok ih =>
      obtain ⟨F, hnd, rfl⟩ := ih
      refine createCategory_sim F newId nm parent s' hnd ?_ hok
      intro hmem
      rw [← rowsF_ids none 1 F] at hmem
      obtain ⟨r, hr, hid⟩ := List.mem_map.mp hmem
      exact hfresh r hr hid
  | move s s' xid yid h hok ih =>
      obtain ⟨F, hnd, rfl⟩ := ih
      exact tryMove_sim F xid yid s' hnd hok
  | delete s s' xid pol h hok ih =>
      obtain ⟨F, hnd, rfl⟩ := ih
      exact tryDelete_sim F xid pol s' hnd hok

/-! ### Descendants via parent pointers, and their correspondence with
interval containment -/

/-- One parent-pointer step: the row with id `y` names `x` as its parent. -/
def childStep (s : List Cat) (y x : Nat) : Prop :=
  ∃ Y ∈ s, Y.category_id = y ∧ Y.parent_category_id = some x

/-- `b` is a proper descendant of `a` among the rows `s`: following
`parent_category_id` pointers upward from `b` reaches `a`. -/
def isDesc (s : List Cat) (a b : Nat) : Prop :=
  Relation.TransGen (childStep s) b a

theorem childStep_mono (s s' : List Cat) (hsub : ∀ r ∈ s, r ∈ s')
    (y x : Nat) (h : childStep s y x) : childStep s' y x := by
  obtain ⟨Y, hY, h1, h2⟩ := h
  exact ⟨Y, hsub Y hY, h1, h2⟩

mutual
theorem chainT (s : List Cat) (j c : Nat) (t : Tree)
    (hsub : ∀ r ∈ rowsT (some j) c t, r ∈ s) :
    ∀ r ∈ rowsT (some j) c t,
      Relation.TransGen (childStep s) r.category_id j := by
  match t with
  | .node i nm ch =>
      intro r hr
      rcases List.mem_cons.mp (by simpa [rowsT] using hr) with rfl | hr'
      · exact Relation.TransGen.single
          ⟨⟨i, nm, some j, c, c + 2 * sizeF ch + 1⟩,
            hsub _ (by simp [rowsT]), rfl, rfl⟩
      · have hhead : (⟨i, nm, some j, c, c + 2 * sizeF ch + 1⟩ : Cat) ∈ s :=
          hsub _ (by simp [rowsT])
        have hct := chainF_aux s i (c + 1) ch
          (fun r' hr' => hsub r' (by simp [rowsT, hr'])) r hr'
        exact hct.tail ⟨⟨i, nm, some j, c, c + 2 * sizeF ch + 1⟩, hhead, rfl, rfl⟩
theorem chainF_aux (s : List Cat) (j c : Nat) (F : Forest)
    (hsub : ∀ r ∈ rowsF (some j) c F, r ∈ s) :
    ∀ r ∈ rowsF (some j) c F,
      Relation.TransGen (childStep s) r.category_id j := by
  match F with
  | .nil => intro r hr; simp [rowsF] at hr
  | .cons t ts =>
      intro r hr
      rcases List.mem_append.mp (by simpa [rowsF] using hr) with hr' | hr'
      · exact chainT s j c t
          (fun r' h => hsub r' (by simp [rowsF, List.mem_append, h])) r hr'
      · exact chainF_aux s j (c + 2 * sizeT t) ts
          (fun r' h => hsub r' (by simp [rowsF, List.mem_append, h])) r hr'
end

theorem chainF (s : List Cat) (j c : Nat) (F : Forest)
    (hsub : ∀ r ∈ rowsF (some j) c F, r ∈ s) :
    ∀ r ∈ rowsF (some j) c F,
      Relation.TransGen (childStep s) r.category_id j :=
  chainF_aux s j c F hsub

mutual
theorem descT (s : List Cat) (p : Option Nat) (c : Nat) (t : Tree)
    (hsub : ∀ r ∈ rowsT p c t, r ∈ s) :
    ∀ A ∈ rowsT p c t, ∀ B ∈ rowsT p c t,
      A.nleft < B.nleft → B.nright < A.nright →
      Relation.TransGen (childStep s) B.category_id A.category_id := by
  match t with
  | .node i nm ch =>
      intro A hA B hB h1 h2
      rcases List.mem_cons.mp (by simpa [rowsT] using hA) with rfl | hA'
      · rcases List.mem_cons.mp (by simpa [rowsT] using hB) with rfl | hB'
        · omega
        · exact chainF s i (c + 1) ch
            (fun r' h => hsub r' (by simp [rowsT, h])) B hB'
      · rcases List.mem_cons.mp (by simpa [rowsT] using hB) with rfl | hB'
        · have := rowsF_bounds (some i) (c + 1) ch A hA'
          exact absurd h1 (by simp only [Cat.nleft] at *; omega)
        · exact descF_aux s (some i) (c + 1) ch
            (fun r' h => hsub r' (by simp [rowsT, h])) A hA' B hB' h1 h2
theorem descF_aux (s : List Cat) (p : Option Nat) (c : Nat) (F : Forest)
    (hsub : ∀ r ∈ rowsF p c F, r ∈ s) :
    ∀ A ∈ rowsF p c F, ∀ B ∈ rowsF p c F,
      A.nleft < B.nleft → B.nright < A.nright →
      Relation.TransGen (childStep s) B.category_id A.category_id := by
  match F with
  | .nil => intro A hA; simp [rowsF] at hA
  | .cons t ts =>
      intro A hA B hB h1 h2
      rcases List.mem_append.mp (by simpa [rowsF] using hA) with hA' | hA'
      · rcases List.mem_append.mp (by simpa [rowsF] using hB) with hB' | hB'
        · exact descT s p c t
            (fun r' h => hsub r' (by simp [rowsF, List.mem_append, h])) A hA' B hB' h1 h2
        · have hAb := rowsT_bounds p c t A hA'
          have hBb := rowsF_bounds p (c + 2 * sizeT t) ts B hB'
          omega
      · rcases List.mem_append.mp (by simpa [rowsF] using hB) with hB' | hB'
        · have hAb := rowsF_bounds p (c + 2 * sizeT t) ts A hA'
          have hBb := rowsT_bounds p c t B hB'
          omega
        · exact descF_aux s p (c + 2 * sizeT t) ts
            (fun r' h => hsub r' (by simp [rowsF, List.mem_append, h])) A hA' B hB' h1 h2
end

theorem descF (s : List Cat) (p : Option Nat) (c : Nat) (F : Forest)
    (hsub : ∀ r ∈ rowsF p c F, r ∈ s) :
    ∀ A ∈ rowsF p c F, ∀ B ∈ rowsF p c F,
      A.nleft < B.nleft → B.nright < A.nright →
      Relation.TransGen (childStep s) B.category_id A.category_id :=
  descF_aux s p c F hsub

mutual
theorem rowsT_parent_contains (p : Option Nat) (c : Nat) (t : Tree) :
    ∀ r ∈ rowsT p c t, r.parent_category_id = p ∨
      ∃ Q ∈ rowsT p c t, some Q.category_id = r.parent_category_id ∧
        Q.nleft < r.nleft ∧ r.nright < Q.nright := by
  match t with
  | .node i nm ch =>
      intro r hr
      rcases List.mem_cons.mp (by simpa [rowsT] using hr) with rfl | hr'
      · exact Or.inl rfl
      · rcases rowsF_parent_contains_aux (some i) (c + 1) ch
          r hr' with hp | ⟨Q, hQ, hq1, hq2, hq3⟩
        · have hb := rowsF_bounds (some i) (c + 1) ch r hr'
          exact Or.inr ⟨⟨i, nm, p, c, c + 2 * sizeF ch + 1⟩, by simp [rowsT],
            by rw [hp], by show c < r.nleft; omega,
            by show r.nright < c + 2 * sizeF ch + 1; omega⟩
        · exact Or.inr ⟨Q, by simp [rowsT, hQ], hq1, hq2, hq3⟩
theorem rowsF_parent_contains_aux (p : Option Nat) (c : Nat)
    (F : Forest) :
    ∀ r ∈ rowsF p c F, r.parent_category_id = p ∨
      ∃ Q ∈ rowsF p c F, some Q.category_id = r.parent_category_id ∧
        Q.nleft < r.nleft ∧ r.nright < Q.nright := by
  match F with
  | .nil => intro r hr; simp [rowsF] at hr
  | .cons t ts =>
      intro r hr
      rcases List.mem_append.mp (by simpa [rowsF] using hr) with hr' | hr'
      · rcases rowsT_parent_contains p c t r hr' with hp | ⟨Q, hQ, hq⟩
        · exact Or.inl hp
        · exact Or.inr ⟨Q, by simp [rowsF, List.mem_append, hQ], hq⟩
      · rcases rowsF_parent_contains_aux p (c + 2 * sizeT t) ts
          r hr' with hp | ⟨Q, hQ, hq⟩
        · exact Or.inl hp
        · exact Or.inr ⟨Q, by simp [rowsF, List.mem_append, hQ], hq⟩
end

theorem rowsF_parent_contains (p : Option Nat) (c : Nat) (F : Forest) :
    ∀ r ∈ rowsF p c F, r.parent_category_id = p ∨
      ∃ Q ∈ rowsF p c F, some Q.category_id = r.parent_category_id ∧
        Q.nleft < r.nleft ∧ r.nright < Q.nright :=
  rowsF_parent_contains_aux p c F

theorem findCat_of_mem_nodup (s : List Cat)
    (hnd : (s.map (fun r => r.category_id)).Nodup)
    (Y : Cat) (hY : Y ∈ s) : findCat s Y.category_id = some Y := by
  induction s with
  | nil => simp at hY
  | cons a l ih =>
      rw [List.map_cons, List.nodup_cons] at hnd
      rcases List.mem_cons.mp hY with rfl | hY'
      · simp only [findCat]
        exact List.find?_cons_of_pos _ (by simp)
      · have hne : (a.category_id == Y.category_id) = false := by
          have : Y.category_id ∈ l.map (fun r => r.category_id) :=
            List.mem_map_of_mem _ hY'
          simp only [beq_eq_false_iff_ne, ne_eq]
          intro hcontra
          rw [hcontra] at hnd
          exact hnd.1 this
        simp only [findCat]
        rw [List.find?_cons_of_neg _ (by simp [hne])]
        exact ih hnd.2 hY'

theorem mem_eq_of_id_nodup (s : List Cat)
    (hnd : (s.map (fun r => r.category_id)).Nodup)
    (A B : Cat) (hA : A ∈ s) (hB : B ∈ s)
    (hid : A.category_id = B.category_id) : A = B := by
  have h1 := findCat_of_mem_nodup s hnd A hA
  have h2 := findCat_of_mem_nodup s hnd B hB
  rw [hid] at h1
  rw [h1] at h2
  exact Option.some.inj h2

theorem isDesc_contained (F : Forest) (hnd : (idsF F).Nodup) (a b : Nat)
    (hdesc : isDesc (rowsOf F) a b) :
    ∀ A B : Cat, findCat (rowsOf F) a = some A →
      findCat (rowsOf F) b = some B →
      A.nleft < B.nleft ∧ B.nright < A.nright := by
  have hndrows : ((rowsOf F).map (fun r => r.category_id)).Nodup := by
    show ((rowsF none 1 F).map (fun r => r.category_id)).Nodup
    rw [rowsF_ids]
    exact hnd
  have hstep : ∀ m x (M : Cat), childStep (rowsOf F) m x →
      findCat (rowsOf F) m = some M →
      ∃ Q ∈ rowsOf F, Q.category_id = x ∧
        Q.nleft < M.nleft ∧ M.nright < Q.nright := by
    intro m x M hcs hfm
    obtain ⟨Y, hY, hYid, hYp⟩ := hcs
    have hMY : M = Y := by
      have h0 := findCat_of_mem_nodup (rowsOf F) hndrows Y hY
      rw [hYid, hfm] at h0
      exact Option.some.inj h0
    subst hMY
    rcases rowsF_parent_contains none 1 F M hY with hp | ⟨Q, hQ, hq1, hq2, hq3⟩
    · rw [hYp] at hp
      exact absurd hp (by simp)
    · rw [hYp] at hq1
      exact ⟨Q, hQ, Option.some.inj hq1, hq2, hq3⟩
  unfold isDesc at hdesc
  induction hdesc with
  | @single x hcs =>
      intro A B hfa hfb
      obtain ⟨Q, hQ, hQid, hq2, hq3⟩ := hstep b x B hcs hfb
      have hfq : findCat (rowsOf F) x = some Q := by
        rw [← hQid]
        exact findCat_of_mem_nodup (rowsOf F) hndrows Q hQ
      rw [hfq] at hfa
      have hQA := Option.some.inj hfa
      rw [← hQA]
      exact ⟨hq2, hq3⟩
  | @tail m x hrest hcs ih =>
      intro A B hfa hfb
      obtain ⟨Y, hY, hYid, hYp⟩ := hcs
      have hfm : findCat (rowsOf F) m = some Y := by
        rw [← hYid]
        exact findCat_of_mem_nodup (rowsOf F) hndrows Y hY
      have hMB := ih Y B hfm hfb
      obtain ⟨Q, hQ, hQid, hq2, hq3⟩ := hstep m x Y ⟨Y, hY, hYid, hYp⟩ hfm
      have hfq : findCat (rowsOf F) x = some Q := by
        rw [← hQid]
        exact findCat_of_mem_nodup (rowsOf F) hndrows Q hQ
      rw [hfq] at hfa
      have hQA := Option.some.inj hfa
      rw [← hQA]
      exact ⟨by omega, by omega⟩

theorem contained_isDesc (F : Forest) (A B : Cat)
    (hA : A ∈ rowsOf F) (hB : B ∈ rowsOf F)
    (h1 : A.nleft < B.nleft) (h2 : B.nright < A.nright) :
    isDesc (rowsOf F) A.category_id B.category_id :=
  descF (rowsOf F) none 1 F (fun _ hr => hr) A hA B hB h1 h2

theorem isDesc_iff_contained (s : List Cat) (h : Reach s) (a b : Nat)
    (A B : Cat) (hfa : findCat s a = some A) (hfb : findCat s b = some B) :
    isDesc s a b ↔ (A.nleft < B.nleft ∧ B.nright < A.nright) := by
  obtain ⟨F, hnd, rfl⟩ := reach_forest s h
  constructor
  · intro hd
    exact isDesc_contained F hnd a b hd A B hfa hfb
  · rintro ⟨h1, h2⟩
    have hA := findCat_some _ _ _ hfa
    have hB := findCat_some _ _ _ hfb
    have hd := contained_isDesc F A B hA.1 hB.1 h1 h2
    rw [hA.2, hB.2] at hd
    exact hd

theorem lam_symmetric : Symmetric lam := by
  intro a b hab
  unfold lam at *
  tauto

theorem pairwise_lam_of_reach (s : List Cat) (h : Reach s) :
    s.Pairwise lam := by
  obtain ⟨F, hnd, rfl⟩ := reach_forest s h
  exact List.Pairwise.imp (fun hab => hab.2) (rowsF_pairwise none 1 F)

theorem bounds_of_reach (s : List Cat) (h : Reach s) :
    ∀ r ∈ s, 1 ≤ r.nleft ∧ r.nleft < r.nright := by
  obtain ⟨F, hnd, rfl⟩ := reach_forest s h
  intro r hr
  have := rowsF_bounds none 1 F r hr
  omega

/-! ### Concrete example states (the spec's Electronics/Laptops/Phones
tenant), used to witness the hypotheses of the claim theorems -/

def exS1 : List Cat := [⟨1, "Electronics", none, 1, 2⟩]

def exS2 : List Cat :=
  [⟨1, "Electronics", none, 1, 4⟩, ⟨2, "Laptops", some 1, 2, 3⟩]

def exS3 : List Cat :=
  [⟨1, "Electronics", none, 1, 6⟩, ⟨2, "Laptops", some 1, 2, 3⟩,
   ⟨3, "Phones", some 1, 4, 5⟩]

theorem exReach1 : Reach exS1 :=
  Reach.create [] exS1 1 "Electronics" none Reach.init (by decide) rfl

theorem exReach2 : Reach exS2 :=
  Reach.create exS1 exS2 2 "Laptops" (some 1) exReach1 (by decide) rfl

theorem exReach3 : Reach exS3 :=
  Reach.create exS2 exS3 3 "Phones" (some 1) exReach2 (by decide) rfl

/-! ### Claim C1 -/

/-- C1: in every reachable tenant state produced by the insert, move and
delete operations, every category `C` satisfies `C.nleft < C.nright`, and
the intervals of any two distinct categories of the tenant are either
disjoint or one strictly contains the other — never partially
overlapping. -/
theorem c1_reachable_laminar (s : List Cat) (h : Reach s) :
    (∀ C ∈ s, C.nleft < C.nright) ∧
    s.Pairwise (fun A B =>
      (A.nright < B.nleft ∨ B.nright < A.nleft) ∨
      (A.nleft < B.nleft ∧ B.nright < A.nright) ∨
      (B.nleft < A.nleft ∧ A.nright < B.nright)) := by
  obtain ⟨F, hnd, rfl⟩ := reach_forest s h
  refine ⟨?_, ?_⟩
  · intro C hC
    exact (rowsF_bounds none 1 F C hC).2.1
  · exact List.Pairwise.imp (fun hab => hab.2) (rowsF_pairwise none 1 F)

/-- Witness for C1 at the concrete three-node tenant. -/
theorem c1_reachable_laminar_witness :
    Reach exS3 ∧
    ((∀ C ∈ exS3, C.nleft < C.nright) ∧
     exS3.Pairwise (fun A B =>
       (A.nright < B.nleft ∨ B.nright < A.nleft) ∨
       (A.nleft < B.nleft ∧ B.nright < A.nright) ∨
       (B.nleft < A.nleft ∧ A.nright < B.nright))) :=
  ⟨exReach3, c1_reachable_laminar exS3 exReach3⟩

/-! ### Claim C2 -/

/-- C2: `insert(parent_id, position)` with a non-null parent assigns the
new node the interval `[parent.nright, parent.nright + 1]` and shifts by
+2 each `nleft` bound that is `≥ parent.nright` and each `nright` bound
that is `≥ parent.nright` of every pre-existing node of the tenant; in
particular, starting from the single root Electronics `[1,2]`, inserting
Laptops yields Electronics `[1,4]`, Laptops `[2,3]`, and inserting Phones
yields Electronics `[1,6]`, Laptops unchanged `[2,3]`, Phones `[4,5]`. -/
theorem c2_insert_shift_scenario (s : List Cat) (newId : Nat) (nm : String)
    (pid : Nat) (p : Cat) (hp : findCat s pid = some p) :
    (∃ s', allocInsert s newId nm (some pid) = .ok s' ∧
      (⟨newId, nm, some pid, p.nright, p.nright + 1⟩ : Cat) ∈ s' ∧
      (∀ c ∈ s, shiftIns p.nright c ∈ s') ∧
      (∀ c' ∈ s', c' = (⟨newId, nm, some pid, p.nright, p.nright + 1⟩ : Cat) ∨
        ∃ c ∈ s, c' = shiftIns p.nright c) ∧
      (∀ c : Cat,
        (shiftIns p.nright c).nleft
          = (if p.nright ≤ c.nleft then c.nleft + 2 else c.nleft) ∧
        (shiftIns p.nright c).nright
          = (if p.nright ≤ c.nright then c.nright + 2 else c.nright))) ∧
    (allocInsert [(⟨1, "Electronics", none, 1, 2⟩ : Cat)] 2 "Laptops" (some 1)
      = .ok [⟨1, "Electronics", none, 1, 4⟩, ⟨2, "Laptops", some 1, 2, 3⟩] ∧
     allocInsert [(⟨1, "Electronics", none, 1, 4⟩ : Cat),
        ⟨2, "Laptops", some 1, 2, 3⟩] 3 "Phones" (some 1)
      = .ok [⟨1, "Electronics", none, 1, 6⟩, ⟨2, "Laptops", some 1, 2, 3⟩,
          ⟨3, "Phones", some 1, 4, 5⟩]) := by
  refine ⟨?_, rfl, rfl⟩
  simp only [allocInsert, hp]
  refine ⟨_, rfl, ?_, ?_, ?_, fun c => ⟨rfl, rfl⟩⟩
  · simp
  · intro c hc
    have hmem : shiftIns p.nright c ∈ s.map (shiftIns p.nright) :=
      List.mem_map_of_mem _ hc
    by_cases hlt : (shiftIns p.nright c).nleft < p.nright
    · apply List.mem_append_left
      exact List.mem_filter.mpr ⟨hmem, by simpa using hlt⟩
    · apply List.mem_append_right
      apply List.mem_cons_of_mem
      exact List.mem_filter.mpr ⟨hmem, by simpa using Nat.le_of_not_lt hlt⟩
  · intro c' hc'
    rcases List.mem_append.mp hc' with h | h
    · obtain ⟨hm, _⟩ := List.mem_filter.mp h
      obtain ⟨c, hc, rfl⟩ := List.mem_map.mp hm
      exact Or.inr ⟨c, hc, rfl⟩
    · rcases List.mem_cons.mp h with h | h
      · exact Or.inl h
      · obtain ⟨hm, _⟩ := List.mem_filter.mp h
        obtain ⟨c, hc, rfl⟩ := List.mem_map.mp hm
        exact Or.inr ⟨c, hc, rfl⟩

/-- Witness for C2 at the concrete one-node tenant. -/
theorem c2_insert_shift_scenario_witness :
    (∃ s', allocInsert exS1 2 "Laptops" (some 1) = .ok s' ∧
      (⟨2, "Laptops", some 1, 2, 3⟩ : Cat) ∈ s' ∧
      (∀ c ∈ exS1, shiftIns 2 c ∈ s') ∧
      (∀ c' ∈ s', c' = (⟨2, "Laptops", some 1, 2, 3⟩ : Cat) ∨
        ∃ c ∈ exS1, c' = shiftIns 2 c) ∧
      (∀ c : Cat,
        (shiftIns 2 c).nleft = (if 2 ≤ c.nleft then c.nleft + 2 else c.nleft) ∧
        (shiftIns 2 c).nright
          = (if 2 ≤ c.nright then c.nright + 2 else c.nright))) ∧
    (allocInsert [(⟨1, "Electronics", none, 1, 2⟩ : Cat)] 2 "Laptops" (some 1)
      = .ok [⟨1, "Electronics", none, 1, 4⟩, ⟨2, "Laptops", some 1, 2, 3⟩] ∧
     allocInsert [(⟨1, "Electronics", none, 1, 4⟩ : Cat),
        ⟨2, "Laptops", some 1, 2, 3⟩] 3 "Phones" (some 1)
      = .ok [⟨1, "Electronics", none, 1, 6⟩, ⟨2, "Laptops", some 1, 2, 3⟩,
          ⟨3, "Phones", some 1, 4, 5⟩]) :=
  c2_insert_shift_scenario exS1 2 "Laptops" 1 ⟨1, "Electronics", none, 1, 2⟩ rfl

/-! ### Claim C5 -/

/-- C5: deleting a node that has children, with no deletion policy
specified, fails with NotEmptyError and leaves the tenant state unchanged
— there is no silent default behavior for the children of a deleted
node. -/
theorem c5_delete_no_policy_not_empty (s : List Cat) (xid : Nat) (X : Cat)
    (hfind : findCat s xid = some X) (hch : hasChild s xid = true) :
    tryDelete s xid none = .error .notEmpty ∧ deleteExec s xid none = s := by
  have h1 : tryDelete s xid none = .error .notEmpty := by
    simp only [tryDelete, hfind, hch, if_true]
  exact ⟨h1, by simp only [deleteExec, h1]⟩

/-- Witness for C5: Electronics has the child Laptops, so deleting it with
no policy is refused. -/
theorem c5_delete_no_policy_not_empty_witness :
    findCat exS2 1 = some ⟨1, "Electronics", none, 1, 4⟩ ∧
    hasChild exS2 1 = true ∧
    (tryDelete exS2 1 none = .error .notEmpty ∧ deleteExec exS2 1 none = exS2) :=
  ⟨rfl, rfl,
    c5_delete_no_policy_not_empty exS2 1 ⟨1, "Electronics", none, 1, 4⟩ rfl rfl⟩

/-! ### Claim C4 -/

/-- C4: in every reachable tenant state, for categories X and Y of the
tenant, `moveCategory(X, Y)` fails with CycleError if and only if Y is a
descendant of X (following parent pointers) or Y equals X; and whenever
the move fails the tenant state is unchanged. -/
theorem c4_move_cycle_iff (s : List Cat) (h : Reach s) (xid yid : Nat)
    (X Y : Cat) (hfx : findCat s xid = some X) (hfy : findCat s yid = some Y) :
    (tryMove s xid yid = .error .cycle ↔ (yid = xid ∨ isDesc s xid yid)) ∧
    (∀ e, tryMove s xid yid = .error e → moveExec s xid yid = s) := by
  have hXmem := findCat_some _ _ _ hfx
  have hYmem := findCat_some _ _ _ hfy
  have hb := bounds_of_reach s h
  have hXb := hb X hXmem.1
  have hYb := hb Y hYmem.1
  refine ⟨?_, ?_⟩
  · by_cases hin : inSub X.nleft X.nright Y
    · have herr : tryMove s xid yid = .error .cycle := by
        simp only [tryMove, hfx, hfy, if_pos hin]
      rw [herr]
      refine ⟨fun _ => ?_, fun _ => rfl⟩
      by_cases hXY : Y = X
      · left
        rw [← hYmem.2, hXY, hXmem.2]
      · right
        have hlam := (pairwise_lam_of_reach s h).forall lam_symmetric
          hXmem.1 hYmem.1 (fun hcontra => hXY hcontra.symm)
        obtain ⟨hin1, hin2⟩ := hin
        have hcont : X.nleft < Y.nleft ∧ Y.nright < X.nright := by
          unfold lam at hlam
          omega
        exact (isDesc_iff_contained s h xid yid X Y hfx hfy).mpr hcont
    · constructor
      · intro herr
        simp only [tryMove, hfx, hfy, if_neg hin] at herr
        exact absurd herr (by simp)
      · intro hyp
        exfalso
        apply hin
        rcases hyp with heq | hdesc
        · have hYX : Y = X := by
            rw [heq] at hfy
            rw [hfy] at hfx
            exact Option.some.inj hfx
          rw [hYX]
          exact ⟨le_refl _, le_refl _⟩
        · have hcont := (isDesc_iff_contained s h xid yid X Y hfx hfy).mp hdesc
          exact ⟨le_of_lt hcont.1, le_of_lt hcont.2⟩
  · intro e herr
    simp only [moveExec, herr]

/-! ### Claim C6 -/

/-- C6: in every reachable tenant state, CASCADE delete of an existing
category X succeeds and removes exactly X and its descendants (the rows
whose interval is contained in X's interval — these are precisely X and
the categories below it); an id survives exactly when its row lay outside
X's interval; a subsequent subtree listing of X fails with NotFoundError;
and the node count decreases by exactly the removed subtree's size. -/
theorem c6_cascade_delete (s : List Cat) (h : Reach s) (xid : Nat)
    (X : Cat) (hfx : findCat s xid = some X) :
    ∃ s', tryDelete s xid (some .cascade) = .ok s' ∧
      (∀ r ∈ s, inSub X.nleft X.nright r ↔ (r = X ∨ isDesc s xid r.category_id)) ∧
      (∀ i, (∃ r' ∈ s', r'.category_id = i) ↔
        (∃ r ∈ s, r.category_id = i ∧ ¬ inSub X.nleft X.nright r)) ∧
      getSubtree s' xid = .error .notFound ∧
      s'.length + (s.filter (fun r => inSub X.nleft X.nright r)).length
        = s.length := by
  obtain ⟨F, hnd, rfl⟩ := reach_forest s h
  obtain ⟨u, q, hsub, hid6, hsz, hflt, hcons⟩ := subtreeF_block xid none 1 F X hfx
  have hXs := findCat_some _ _ _ hfx
  have hndrows : ((rowsOf F).map (fun r => r.category_id)).Nodup := by
    show ((rowsF none 1 F).map (fun r => r.category_id)).Nodup
    rw [rowsF_ids]
    exact hnd
  have hflt' : rowsT q X.nleft u
      = (rowsOf F).filter (fun r => inSub X.nleft X.nright r) := hflt
  have hcf : containsF xid F = true := by
    rw [containsF_iff]
    rw [← hXs.2]
    exact mem_rowsF_id none 1 F X hXs.1
  obtain ⟨u2, hsub2, hperm⟩ := idsF_removeF xid F hcf
  have huu : u2 = u := by
    rw [hsub] at hsub2
    exact (Option.some.inj hsub2).symm
  rw [huu] at hperm
  have hrows' : rowsOf (removeF xid F)
      = ((rowsOf F).filter (fun c => ¬ inSub X.nleft X.nright c)).map
          (closeGap X.nright (X.nright - X.nleft + 1)) :=
    (removeF_rows xid none 1 F X hfx).1
  have hxid_u : xid ∈ idsT u := by
    cases u with
    | node i nm ch =>
        have hix : i = xid := hid6
        rw [← hix]
        simp [idsT]
  have hndapp : (idsT u ++ idsF (removeF xid F)).Nodup := hperm.nodup hnd
  have hnotin : xid ∉ idsF (removeF xid F) := by
    have hdisj := (List.nodup_append.mp hndapp).2.2
    exact hdisj hxid_u
  have hcfr : containsF xid (removeF xid F) = false := by
    cases hc : containsF xid (removeF xid F)
    · rfl
    · exact absurd ((containsF_iff xid (removeF xid F)).mp hc) hnotin
  have hfnone : findCat (rowsOf (removeF xid F)) xid = none :=
    findCat_rowsF_none none 1 (removeF xid F) xid hcfr
  refine ⟨rowsOf (removeF xid F), ?_, ?_, ?_, ?_, ?_⟩
  · simp only [tryDelete, hfx]
    rw [hrows']
  · intro r hr
    constructor
    · intro hinr
      by_cases hrx : r = X
      · exact Or.inl hrx
      · right
        have hlam := (pairwise_lam_of_reach _ h).forall lam_symmetric hXs.1 hr
          (fun hc => hrx hc.symm)
        obtain ⟨h1, h2⟩ := hinr
        have hbX := bounds_of_reach _ h X hXs.1
        have hbr := bounds_of_reach _ h r hr
        have hcont : X.nleft < r.nleft ∧ r.nright < X.nright := by
          unfold lam at hlam
          omega
        have hd := contained_isDesc F X r hXs.1 hr hcont.1 hcont.2
        rw [hXs.2] at hd
        exact hd
    · rintro (rfl | hd)
      · exact ⟨le_refl _, le_refl _⟩
      · have hfr : findCat (rowsOf F) r.category_id = some r :=
          findCat_of_mem_nodup (rowsOf F) hndrows r hr
        have hcont := isDesc_contained F hnd xid r.category_id hd X r hfx hfr
        exact ⟨le_of_lt hcont.1, le_of_lt hcont.2⟩
  · intro i
    constructor
    · rintro ⟨r', hr', hidr⟩
      rw [hrows'] at hr'
      obtain ⟨r, hrf, hre⟩ := List.mem_map.mp hr'
      have hrm := List.mem_filter.mp hrf
      refine ⟨r, hrm.1, ?_, ?_⟩
      · rw [← hidr, ← hre]
        simp [closeGap]
      · have hdec := hrm.2
        simpa using hdec
    · rintro ⟨r, hrm, hidr, hnin⟩
      refine ⟨closeGap X.nright (X.nright - X.nleft + 1) r, ?_, ?_⟩
      · rw [hrows']
        exact List.mem_map_of_mem _ (List.mem_filter.mpr ⟨hrm, by simpa using hnin⟩)
      · exact hidr
  · simp only [getSubtree, hfnone]
  · have hlen1 : (rowsOf F).length
        = (idsT u).length + (idsF (removeF xid F)).length := by
      have e1 : (rowsOf F).length = (idsF F).length := by
        rw [← rowsF_ids none 1 F, List.length_map]
        rfl
      rw [e1, hperm.length_eq, List.length_append]
    have hlen2 : ((rowsOf F).filter (fun r => inSub X.nleft X.nright r)).length
        = (idsT u).length := by
      rw [← hflt', ← rowsT_ids q X.nleft u, List.length_map]
    have hlen3 : (rowsOf (removeF xid F)).length
        = (idsF (removeF xid F)).length := by
      rw [← rowsF_ids none 1 (removeF xid F), List.length_map]
      rfl
    omega

/-- Witness for C6: cascading the deletion of Laptops in the
three-category state. -/
theorem c6_cascade_delete_witness :
    Reach exS3 ∧ findCat exS3 2 = some ⟨2, "Laptops", some 1, 2, 3⟩ ∧
    ∃ s', tryDelete exS3 2 (some .cascade) = .ok s' ∧
      (∀ r ∈ exS3, inSub 2 3 r ↔ (r = ⟨2, "Laptops", some 1, 2, 3⟩ ∨
        isDesc exS3 2 r.category_id)) ∧
      (∀ i, (∃ r' ∈ s', r'.category_id = i) ↔
        (∃ r ∈ exS3, r.category_id = i ∧ ¬ inSub 2 3 r)) ∧
      getSubtree s' 2 = .error .notFound ∧
      s'.length + (exS3.filter (fun r => inSub 2 3 r)).length = exS3.length :=
  ⟨exReach3, rfl, c6_cascade_delete exS3 exReach3 2
    ⟨2, "Laptops", some 1, 2, 3⟩ rfl⟩

/-! ### Claim C3 -/

/-- C3: in every reachable tenant state, for every existing category X,
`getSubtree` / `listSubtree` succeeds and returns exactly the categories
whose interval is contained in X's interval, ordered by strictly
ascending `nleft` (pre-order), with X itself first, followed by all and
only X's descendants. -/
theorem c3_subtree_listing (s : List Cat) (h : Reach s) (xid : Nat)
    (X : Cat) (hfx : findCat s xid = some X) :
    ∃ L, getSubtree s xid = .ok L ∧
      (∀ r, r ∈ L ↔ r ∈ s ∧ X.nleft ≤ r.nleft ∧ r.nright ≤ X.nright) ∧
      L.Pairwise (fun a b => a.nleft < b.nleft) ∧
      L.head? = some X ∧
      (∀ r ∈ s, r ∈ L.tail ↔ isDesc s xid r.category_id) := by
  obtain ⟨F, hnd, rfl⟩ := reach_forest s h
  obtain ⟨u, q, hsub, hid, hsz, hflt, hcons⟩ := subtreeF_block xid none 1 F X hfx
  have hXs := findCat_some _ _ _ hfx
  have hndrows : ((rowsOf F).map (fun r => r.category_id)).Nodup := by
    show ((rowsF none 1 F).map (fun r => r.category_id)).Nodup
    rw [rowsF_ids]
    exact hnd
  have hflt' : rowsT q X.nleft u
      = (rowsOf F).filter (fun r => inSub X.nleft X.nright r) := hflt
  have hord : (rowsT q X.nleft u).Pairwise ordLam := rowsT_pairwise q X.nleft u
  have hsorted : (rowsT q X.nleft u).Sorted (fun a b => a.nleft ≤ b.nleft) :=
    hord.imp (fun hab => le_of_lt hab.1)
  have hszu : sizeT u = 1 + sizeF (treeCh u) := by
    cases u with
    | node i nm ch => simp [sizeT, treeCh]
  refine ⟨rowsT q X.nleft u, ?_, ?_, ?_, ?_, ?_⟩
  · simp only [getSubtree, hfx]
    rw [← hflt']
    simp only [sortByNleft]
    rw [List.Sorted.insertionSort_eq hsorted]
  · intro r
    rw [hflt']
    simp only [List.mem_filter, decide_eq_true_eq, inSub]
  · exact hord.imp (fun hab => hab.1)
  · rw [hcons]
    rfl
  · intro r hr
    constructor
    · intro hrt
      rw [hcons, List.tail_cons] at hrt
      have hb := rowsF_bounds (some xid) (X.nleft + 1) (treeCh u) r hrt
      have hcont : X.nleft < r.nleft ∧ r.nright < X.nright := by omega
      have hd := contained_isDesc F X r hXs.1 hr hcont.1 hcont.2
      rw [hXs.2] at hd
      exact hd
    · intro hd
      have hfr : findCat (rowsOf F) r.category_id = some r :=
        findCat_of_mem_nodup (rowsOf F) hndrows r hr
      have hcont := isDesc_contained F hnd xid r.category_id hd X r hfx hfr
      have hrL : r ∈ rowsT q X.nleft u := by
        rw [hflt', List.mem_filter]
        refine ⟨hr, ?_⟩
        simp only [decide_eq_true_eq, inSub]
        omega
      rw [hcons] at hrL
      rcases List.mem_cons.mp hrL with rfl | hrt
      · exact absurd hcont.1 (lt_irrefl _)
      · rw [hcons, List.tail_cons]
        exact hrt

/-- Witness for C3: the subtree listing of Electronics in the
three-category state. -/
theorem c3_subtree_listing_witness :
    Reach exS3 ∧ findCat exS3 1 = some ⟨1, "Electronics", none, 1, 6⟩ ∧
    ∃ L, getSubtree exS3 1 = .ok L ∧
      (∀ r, r ∈ L ↔ r ∈ exS3 ∧ 1 ≤ r.nleft ∧ r.nright ≤ 6) ∧
      L.Pairwise (fun a b => a.nleft < b.nleft) ∧
      L.head? = some ⟨1, "Electronics", none, 1, 6⟩ ∧
      (∀ r ∈ exS3, r ∈ L.tail ↔ isDesc exS3 1 r.category_id) :=
  ⟨exReach3, rfl, c3_subtree_listing exS3 exReach3 1
    ⟨1, "Electronics", none, 1, 6⟩ rfl⟩

/-- Witness for C4: moving Electronics under its descendant Phones is
refused with CycleError. -/
theorem c4_move_cycle_iff_witness :
    Reach exS3 ∧
    ((tryMove exS3 1 3 = .error .cycle ↔ (3 = 1 ∨ isDesc exS3 1 3)) ∧
     (∀ e, tryMove exS3 1 3 = .error e → moveExec exS3 1 3 = exS3)) :=
  ⟨exReach3, c4_move_cycle_iff exS3 exReach3 1 3
    ⟨1, "Electronics", none, 1, 6⟩ ⟨3, "Phones", some 1, 4, 5⟩ rfl rfl⟩

/-! ### Claim C7: the multi-tenant database layer -/

/-- The category tables of all tenants: each tenant id (`activity_id`) has
its own list of rows, mirroring the schema's tenant scoping of `Category`
(src/prisma/schema.prisma lines 115-138). -/
def DB : Type := Nat → List Cat

/-- Replace one tenant's rows. -/
def updDB (db : DB) (t : Nat) (rows : List Cat) : DB :=
  fun t' => if t' = t then rows else db t'

/-- Modelled from the spec: `createCategory(tenant, parentId, attrs)` at the
database level (spec section 4.2).  The duplicate-name check is scoped to
the tenant, after the schema's composite unique `[activity_id, name]`
(src/prisma/schema.prisma line 133, index `Category_activity_id_name_key`
of the migration). -/
def createExecDB (db : DB) (t : Nat) (newId : Nat) (nm : String)
    (parent : Option Nat) : Except Err DB :=
  match createCategory (db t) newId nm parent with
  | .error e => .error e
  | .ok rows => .ok (updDB db t rows)

/-- Database state after a create attempt: a failed transaction rolls back
and leaves every tenant's rows unchanged. -/
def createDB (db : DB) (t : Nat) (newId : Nat) (nm : String)
    (parent : Option Nat) : DB :=
  match createExecDB db t newId nm parent with
  | .ok db' => db'
  | .error _ => db

/-- Two-tenant example database: tenant 1 holds the one-category state,
tenant 2 is empty. -/
def exDB : DB := fun t => if t = 1 then exS1 else []

theorem allocInsert_ne_duplicate (s : List Cat) (newId : Nat) (nm : String)
    (parent : Option Nat) :
    allocInsert s newId nm parent ≠ .error .duplicateName := by
  cases parent with
  | none => simp [allocInsert]
  | some pid =>
      simp only [allocInsert]
      cases hf : findCat s pid <;> simp

theorem createCategory_dup_iff (s : List Cat) (newId : Nat) (nm : String)
    (parent : Option Nat) :
    createCategory s newId nm parent = .error .duplicateName ↔
      ∃ r ∈ s, r.name = nm := by
  simp only [createCategory]
  by_cases hany : s.any (fun c => c.name == nm)
  · rw [if_pos hany]
    constructor
    · intro _
      simp only [List.any_eq_true, beq_iff_eq] at hany
      exact hany
    · intro _
      rfl
  · rw [if_neg hany]
    constructor
    · intro herr
      exact absurd herr (allocInsert_ne_duplicate s newId nm parent)
    · rintro ⟨r, hr, hrn⟩
      exfalso
      apply hany
      rw [List.any_eq_true]
      exact ⟨r, hr, by simp [hrn]⟩

theorem createExecDB_err_iff (db : DB) (t : Nat) (newId : Nat) (nm : String)
    (parent : Option Nat) (e : Err) :
    createExecDB db t newId nm parent = .error e ↔
      createCategory (db t) newId nm parent = .error e := by
  simp only [createExecDB]
  cases hc : createCategory (db t) newId nm parent <;> simp

/-- C7: category names are unique within a tenant: the create fails with
DuplicateNameError exactly when the name already occurs among the tenant's
categories; any failing create leaves every tenant's rows unchanged; and
the same name may be created in a second tenant where it is still free,
without touching the first tenant's rows. -/
theorem c7_name_unique_per_tenant (db : DB) (t1 t2 : Nat) (hne : t2 ≠ t1)
    (newId : Nat) (nm : String) (parent : Option Nat)
    (hfree2 : ∀ r ∈ db t2, r.name ≠ nm) :
    (createExecDB db t1 newId nm parent = .error .duplicateName ↔
       ∃ r ∈ db t1, r.name = nm) ∧
    (∀ e, createExecDB db t1 newId nm parent = .error e →
       createDB db t1 newId nm parent = db) ∧
    (∃ db', createExecDB db t2 newId nm none = .ok db' ∧
       (∃ r ∈ db' t2, r.name = nm) ∧ db' t1 = db t1) := by
  refine ⟨?_, ?_, ?_⟩
  · rw [createExecDB_err_iff]
    exact createCategory_dup_iff (db t1) newId nm parent
  · intro e herr
    simp only [createDB, herr]
  · have hany2 : ((db t2).any (fun c => c.name == nm)) = false := by
      cases hc : (db t2).any (fun c => c.name == nm)
      · rfl
      · exfalso
        rw [List.any_eq_true] at hc
        obtain ⟨r, hr, hrb⟩ := hc
        exact hfree2 r hr (by simpa using hrb)
    have hcc : createCategory (db t2) newId nm none
        = .ok ((db t2) ++ [⟨newId, nm, none,
            maxNright (db t2) + 1, maxNright (db t2) + 2⟩]) := by
      simp only [createCategory, hany2, Bool.false_eq_true, if_false, allocInsert]
    refine ⟨updDB db t2 ((db t2) ++ [⟨newId, nm, none,
      maxNright (db t2) + 1, maxNright (db t2) + 2⟩]), ?_, ?_, ?_⟩
    · simp only [createExecDB, hcc]
    · refine ⟨⟨newId, nm, none, maxNright (db t2) + 1, maxNright (db t2) + 2⟩,
        ?_, rfl⟩
      simp [updDB]
    · simp only [updDB]
      rw [if_neg (Ne.symm hne)]

/-- Witness for C7: "Electronics" collides in tenant 1 and is created
fresh in tenant 2. -/
theorem c7_name_unique_per_tenant_witness :
    (createExecDB exDB 1 5 "Electronics" none = .error .duplicateName ↔
       ∃ r ∈ exDB 1, r.name = "Electronics") ∧
    (∀ e, createExecDB exDB 1 5 "Electronics" none = .error e →
       createDB exDB 1 5 "Electronics" none = exDB) ∧
    (∃ db', createExecDB exDB 2 5 "Electronics" none = .ok db' ∧
       (∃ r ∈ db' 2, r.name = "Electronics") ∧ db' 1 = exDB 1) :=
  c7_name_unique_per_tenant exDB 1 2 (by decide) 5 "Electronics" none
    (by simp [exDB])

/-! ### Claim C8: the cache coordinator -/

/-- Cache query shapes (spec section 4.3: subtree and ancestor listings
are the cached read queries). -/
inductive QueryShape where
  | subtree
  | ancestors
deriving DecidableEq, Repr

/-- A cache key: tenant, query shape and node id (spec section 4.3). -/
structure CKey where
  tenant : Nat
  shape : QueryShape
  node : Nat
deriving DecidableEq, Repr

/-- A system state: the database and the cache, a partial map from keys to
memoised query results. -/
structure Sys where
  db : DB
  cache : CKey → Option (Except Err (List Cat))

/-- The value a key denotes on a given database. -/
def evalShape (db : DB) (k : CKey) : Except Err (List Cat) :=
  match k.shape with
  | .subtree => getSubtree (db k.tenant) k.node
  | .ancestors => getAncestors (db k.tenant) k.node

/-- Modelled from the spec: a read-through cache lookup (spec section 4.3):
a hit returns the cached value, a miss computes from the database and
fills the cache. -/
def readQuery (σ : Sys) (k : CKey) : (Except Err (List Cat)) × Sys :=
  match σ.cache k with
  | some v => (v, σ)
  | none =>
      (evalShape σ.db k,
       ⟨σ.db, fun k' => if k' = k then some (evalShape σ.db k) else σ.cache k'⟩)

/-- Modelled from the spec: a structural mutation of tenant `t` commits the
new rows and synchronously invalidates every cache key of that tenant
before the call returns (spec section 4.3: tenant-wide invalidation must
complete before the mutating transaction is acknowledged), so the state
this function returns is the state at acknowledgement time. -/
def mutate (σ : Sys) (t : Nat) (rows : List Cat) : Sys :=
  ⟨updDB σ.db t rows, fun k => if k.tenant = t then none else σ.cache k⟩

/-- Cache coherence: every cached entry equals the value computed from the
current database. -/
def Coherent (σ : Sys) : Prop :=
  ∀ k v, σ.cache k = some v → v = evalShape σ.db k

/-- System states reachable from an empty cache by reads and mutations. -/
inductive SysReach : Sys → Prop where
  | init (db : DB) : SysReach ⟨db, fun _ => none⟩
  | read (σ : Sys) (k : CKey) (h : SysReach σ) : SysReach (readQuery σ k).2
  | doMutate (σ : Sys) (t : Nat) (rows : List Cat) (h : SysReach σ) :
      SysReach (mutate σ t rows)

theorem evalShape_ext (db db' : DB) (k : CKey)
    (hdb : db' k.tenant = db k.tenant) : evalShape db' k = evalShape db k := by
  simp only [evalShape]
  cases k.shape
  · rw [hdb]
  · rw [hdb]

theorem sysReach_coherent (σ : Sys) (h : SysReach σ) : Coherent σ := by
  induction h with
  | init db =>
      intro k v hv
      exact absurd hv (by simp)
  | read σ k hσ ih =>
      cases hc : σ.cache k with
      | some v0 =>
          have he : (readQuery σ k).2 = σ := by
            simp [readQuery, hc]
          rw [he]
          exact ih
      | none =>
          have he : (readQuery σ k).2
              = ⟨σ.db, fun k' => if k' = k then some (evalShape σ.db k)
                  else σ.cache k'⟩ := by
            simp [readQuery, hc]
          rw [he]
          intro k' v hv
          simp only at hv ⊢
          by_cases hk : k' = k
          · rw [if_pos hk] at hv
            have hvv := Option.some.inj hv
            rw [← hvv, hk]
          · rw [if_neg hk] at hv
            exact ih k' v hv
  | doMutate σ t rows hσ ih =>
      intro k v hv
      simp only [mutate] at hv ⊢
      by_cases hk : k.tenant = t
      · rw [if_pos hk] at hv
        exact absurd hv (by simp)
      · rw [if_neg hk] at hv
        rw [ih k v hv]
        refine (evalShape_ext σ.db (updDB σ.db t rows) k ?_).symm
        simp only [updDB]
        rw [if_neg hk]

/-- C8: read-after-write consistency of the cache.  In every reachable
system state the cache is coherent with the database; every read returns
the value computed from the current database; and a read issued after a
mutation is acknowledged — `mutate` returns only after the tenant's keys
are invalidated — returns the value computed from the post-mutation
database, never a pre-mutation cached value. -/
theorem c8_read_after_write (σ : Sys) (h : SysReach σ) :
    Coherent σ ∧
    (∀ k, (readQuery σ k).1 = evalShape σ.db k) ∧
    (∀ t rows k, k.tenant = t →
       (readQuery (mutate σ t rows) k).1 = evalShape (updDB σ.db t rows) k) := by
  have hco := sysReach_coherent σ h
  refine ⟨hco, ?_, ?_⟩
  · intro k
    cases hc : σ.cache k with
    | some v =>
        have h1 : (readQuery σ k).1 = v := by
          simp [readQuery, hc]
        rw [h1]
        exact hco k v hc
    | none =>
        simp [readQuery, hc]
  · intro t rows k hk
    have hcm : (mutate σ t rows).cache k = none := by
      simp [mutate, hk]
    have h1 : (readQuery (mutate σ t rows) k).1
        = evalShape (mutate σ t rows).db k := by
      simp [readQuery, hcm]
    rw [h1]
    rfl

/-- Witness for C8: the initial system over the two-tenant example
database. -/
theorem c8_read_after_write_witness :
    Coherent ⟨exDB, fun _ => none⟩ ∧
    (∀ k, (readQuery ⟨exDB, fun _ => none⟩ k).1 = evalShape exDB k) ∧
    (∀ t rows k, k.tenant = t →
       (readQuery (mutate ⟨exDB, fun _ => none⟩ t rows) k).1
         = evalShape (updDB exDB t rows) k) :=
  c8_read_after_write ⟨exDB, fun _ => none⟩ (SysReach.init exDB)

/-! ### Claim C9: brands -/

/-- One `Brand` row, after the Prisma model `Brand`
(src/prisma/schema.prisma lines 94-110): `brand_id`, tenant `activity_id`,
and `name`, which the schema declares `@unique` on its own — the
migration's index `Brand_name_key` is on `Brand(name)` alone, not on
`(activity_id, name)`. -/
structure BrandRow where
  brand_id : Nat
  activity_id : Nat
  name : String
deriving DecidableEq, Repr

/-- Insert enforcing the schema's global unique index on `Brand.name`: the
insert is rejected exactly when any existing brand — of any tenant —
already carries the name. -/
def brandInsert (bs : List BrandRow) (b : BrandRow) :
    Except Err (List BrandRow) :=
  if bs.any (fun b0 => b0.name == b.name) then .error .duplicateName
  else .ok (bs ++ [b])

/-- Brand tables reachable through inserts from the empty table. -/
inductive BrandReach : List BrandRow → Prop where
  | init : BrandReach []
  | insert (bs : List BrandRow) (b : BrandRow) (bs' : List BrandRow)
      (h : BrandReach bs) (hok : brandInsert bs b = .ok bs') : BrandReach bs'

/-- C9: brand names are unique globally, not per tenant: in every reachable
brand table any two brands — even of different tenants — have different
names; an insert fails with the duplicate error exactly when the name
already exists anywhere; in particular a name held by another tenant's
brand is enough to make the insert fail. -/
theorem c9_brand_name_global_unique (bs : List BrandRow) (h : BrandReach bs) :
    List.Pairwise (fun a b => a.name ≠ b.name) bs ∧
    (∀ b : BrandRow, brandInsert bs b = .error .duplicateName ↔
       ∃ b0 ∈ bs, b0.name = b.name) ∧
    (∀ b : BrandRow, ∀ b0 ∈ bs, b0.name = b.name →
       b0.activity_id ≠ b.activity_id →
       brandInsert bs b = .error .duplicateName) := by
  have hiff : ∀ b : BrandRow, brandInsert bs b = .error .duplicateName ↔
      ∃ b0 ∈ bs, b0.name = b.name := by
    intro b
    simp only [brandInsert]
    by_cases hany : bs.any (fun b0 => b0.name == b.name)
    · rw [if_pos hany]
      constructor
      · intro _
        simp only [List.any_eq_true, beq_iff_eq] at hany
        exact hany
      · intro _
        rfl
    · rw [if_neg hany]
      constructor
      · intro hcontra
        exact absurd hcontra (by simp)
      · rintro ⟨b0, hb0, hn⟩
        exfalso
        apply hany
        rw [List.any_eq_true]
        exact ⟨b0, hb0, by simp [hn]⟩
  refine ⟨?_, hiff, ?_⟩
  · clear hiff
    induction h with
    | init => exact List.Pairwise.nil
    | insert bs b bs' hr hok ih =>
        simp only [brandInsert] at hok
        by_cases hany : bs.any (fun b0 => b0.name == b.name)
        · rw [if_pos hany] at hok
          exact absurd hok (by simp)
        · rw [if_neg hany] at hok
          have hbs' : bs' = bs ++ [b] := (Except.ok.inj hok).symm
          subst hbs'
          rw [List.pairwise_append]
          refine ⟨ih, List.pairwise_singleton _ _, ?_⟩
          intro a ha b' hb'
          have hbb : b' = b := List.mem_singleton.mp hb'
          subst hbb
          intro hcontra
          apply hany
          rw [List.any_eq_true]
          exact ⟨a, ha, by simp [hcontra]⟩
  · intro b b0 hb0 hn _
    exact (hiff b).mpr ⟨b0, hb0, hn⟩

/-- Witness for C9: the one-brand table reached by inserting Acme. -/
theorem c9_brand_name_global_unique_witness :
    List.Pairwise (fun a b => a.name ≠ b.name) [(⟨1, 1, "Acme"⟩ : BrandRow)] ∧
    (∀ b : BrandRow,
       brandInsert [(⟨1, 1, "Acme"⟩ : BrandRow)] b = .error .duplicateName ↔
       ∃ b0 ∈ [(⟨1, 1, "Acme"⟩ : BrandRow)], b0.name = b.name) ∧
    (∀ b : BrandRow, ∀ b0 ∈ [(⟨1, 1, "Acme"⟩ : BrandRow)], b0.name = b.name →
       b0.activity_id ≠ b.activity_id →
       brandInsert [(⟨1, 1, "Acme"⟩ : BrandRow)] b = .error .duplicateName) :=
  c9_brand_name_global_unique [⟨1, 1, "Acme"⟩]
    (BrandReach.insert [] ⟨1, 1, "Acme"⟩ [⟨1, 1, "Acme"⟩] BrandReach.init rfl)

/-! ### Claim C10: products, SKUs and category links -/

/-- One `Product` row, after the Prisma model `Product`
(src/prisma/schema.prisma, `@@unique([activity_id, sku])` on line 164;
migration index `Product_activity_id_sku_key`): the SKU is unique within a
tenant, not globally. -/
structure ProductRow where
  product_id : Nat
  activity_id : Nat
  sku : String
deriving DecidableEq, Repr

/-- Insert enforcing the composite unique `(activity_id, sku)`. -/
def productInsert (ps : List ProductRow) (p : ProductRow) :
    Except Err (List ProductRow) :=
  if ps.any (fun p0 => p0.activity_id == p.activity_id && p0.sku == p.sku)
  then .error .duplicateName
  else .ok (ps ++ [p])

/-- Product tables reachable through inserts from the empty table. -/
inductive ProductReach : List ProductRow → Prop where
  | init : ProductReach []
  | insert (ps : List ProductRow) (p : ProductRow) (ps' : List ProductRow)
      (h : ProductReach ps) (hok : productInsert ps p = .ok ps') :
      ProductReach ps'

/-- One `ProductCategory` link row, after the Prisma model
`ProductCategory` (src/prisma/schema.prisma lines 169-177): the primary
key is the pair `(product_id, category_id)`, so the same product cannot be
linked twice to the same category. -/
structure LinkRow where
  product_id : Nat
  category_id : Nat
deriving DecidableEq, Repr

/-- Insert enforcing the composite primary key `(product_id, category_id)`. -/
def linkInsert (ls : List LinkRow) (l : LinkRow) : Except Err (List LinkRow) :=
  if ls.any (fun l0 => l0.product_id == l.product_id &&
       l0.category_id == l.category_id)
  then .error .duplicateName
  else .ok (ls ++ [l])

/-- Link tables reachable through inserts from the empty table. -/
inductive LinkReach : List LinkRow → Prop where
  | init : LinkReach []
  | insert (ls : List LinkRow) (l : LinkRow) (ls' : List LinkRow)
      (h : LinkReach ls) (hok : linkInsert ls l = .ok ls') : LinkReach ls'

/-- Modelled from the spec: the products of a category subtree (spec
section 6) — the ids of products linked to any category whose interval
lies in the subtree, as a set (no duplicates). -/
def productsInSubtree (s : List Cat) (ls : List LinkRow) (xid : Nat) :
    Except Err (List Nat) :=
  match findCat s xid with
  | none => .error .notFound
  | some X =>
      .ok (((ls.filter (fun l =>
          (s.filter (fun c => inSub X.nleft X.nright c)).any
            (fun c => c.category_id == l.category_id))).map
          (fun l => l.product_id)).dedup)

/-- C10: SKUs are unique per tenant but may repeat across tenants, links
are unique per (product, category) pair, and the subtree product listing
has set semantics.  In every reachable product table any two products of
one tenant have different SKUs; the insert fails exactly on a same-tenant
SKU collision, so a SKU held only by other tenants can be inserted; in
every reachable link table no (product, category) pair occurs twice; and
every successful subtree product listing is duplicate-free. -/
theorem c10_sku_and_links (ps : List ProductRow) (hp : ProductReach ps)
    (ls : List LinkRow) (hl : LinkReach ls) :
    List.Pairwise
      (fun a b => a.activity_id = b.activity_id → a.sku ≠ b.sku) ps ∧
    (∀ p : ProductRow, productInsert ps p = .error .duplicateName ↔
       ∃ p0 ∈ ps, p0.activity_id = p.activity_id ∧ p0.sku = p.sku) ∧
    (∀ p : ProductRow, (∀ p0 ∈ ps, p0.activity_id = p.activity_id →
       p0.sku ≠ p.sku) → productInsert ps p = .ok (ps ++ [p])) ∧
    List.Pairwise
      (fun a b => ¬(a.product_id = b.product_id ∧
        a.category_id = b.category_id)) ls ∧
    (∀ s xid L, productsInSubtree s ls xid = .ok L → L.Nodup) := by
  refine ⟨?_, ?_, ?_, ?_, ?_⟩
  · induction hp with
    | init => exact List.Pairwise.nil
    | insert ps p ps' hr hok ih =>
        simp only [productInsert] at hok
        by_cases hany : ps.any
            (fun p0 => p0.activity_id == p.activity_id && p0.sku == p.sku)
        · rw [if_pos hany] at hok
          exact absurd hok (by simp)
        · rw [if_neg hany] at hok
          have hps' : ps' = ps ++ [p] := (Except.ok.inj hok).symm
          subst hps'
          rw [List.pairwise_append]
          refine ⟨ih, List.pairwise_singleton _ _, ?_⟩
          intro a ha p' hp'
          have hpp : p' = p := List.mem_singleton.mp hp'
          subst hpp
          intro haid hsku
          apply hany
          rw [List.any_eq_true]
          exact ⟨a, ha, by simp [haid, hsku]⟩
  · intro p
    simp only [productInsert]
    by_cases hany : ps.any
        (fun p0 => p0.activity_id == p.activity_id && p0.sku == p.sku)
    · rw [if_pos hany]
      constructor
      · intro _
        simp only [List.any_eq_true, Bool.and_eq_true, beq_iff_eq] at hany
        exact hany
      · intro _
        rfl
    · rw [if_neg hany]
      constructor
      · intro hcontra
        exact absurd hcontra (by simp)
      · rintro ⟨p0, hp0, haid, hsku⟩
        exfalso
        apply hany
        rw [List.any_eq_true]
        exact ⟨p0, hp0, by simp [haid, hsku]⟩
  · intro p hfree
    simp only [productInsert]
    have hany : ps.any
        (fun p0 => p0.activity_id == p.activity_id && p0.sku == p.sku)
        = false := by
      cases hc : ps.any
          (fun p0 => p0.activity_id == p.activity_id && p0.sku == p.sku)
      · rfl
      · exfalso
        rw [List.any_eq_true] at hc
        obtain ⟨p0, hp0, hb⟩ := hc
        simp only [Bool.and_eq_true, beq_iff_eq] at hb
        exact hfree p0 hp0 hb.1 hb.2
    rw [if_neg (by rw [hany]; exact Bool.false_ne_true)]
  · induction hl with
    | init => exact List.Pairwise.nil
    | insert ls l ls' hr hok ih =>
        simp only [linkInsert] at hok
        by_cases hany : ls.any (fun l0 => l0.product_id == l.product_id &&
            l0.category_id == l.category_id)
        · rw [if_pos hany] at hok
          exact absurd hok (by simp)
        · rw [if_neg hany] at hok
          have hls' : ls' = ls ++ [l] := (Except.ok.inj hok).symm
          subst hls'
          rw [List.pairwise_append]
          refine ⟨ih, List.pairwise_singleton _ _, ?_⟩
          intro a ha l' hl'
          have hll : l' = l := List.mem_singleton.mp hl'
          subst hll
          rintro ⟨hpid, hcid⟩
          apply hany
          rw [List.any_eq_true]
          exact ⟨a, ha, by simp [hpid, hcid]⟩
  · intro s xid L hok
    simp only [productsInSubtree] at hok
    split at hok
    · exact absurd hok (by simp)
    · simp only [Except.ok.injEq] at hok
      rw [← hok]
      exact List.nodup_dedup _

/-- Witness for C10: the one-product, one-link tables. -/
theorem c10_sku_and_links_witness :
    List.Pairwise (fun a b => a.activity_id = b.activity_id → a.sku ≠ b.sku)
      [(⟨1, 1, "SKU-1"⟩ : ProductRow)] ∧
    (∀ p : ProductRow,
       productInsert [(⟨1, 1, "SKU-1"⟩ : ProductRow)] p
         = .error .duplicateName ↔
       ∃ p0 ∈ [(⟨1, 1, "SKU-1"⟩ : ProductRow)],
         p0.activity_id = p.activity_id ∧ p0.sku = p.sku) ∧
    (∀ p : ProductRow,
       (∀ p0 ∈ [(⟨1, 1, "SKU-1"⟩ : ProductRow)],
          p0.activity_id = p.activity_id → p0.sku ≠ p.sku) →
       productInsert [(⟨1, 1, "SKU-1"⟩ : ProductRow)] p
         = .ok ([(⟨1, 1, "SKU-1"⟩ : ProductRow)] ++ [p])) ∧
    List.Pairwise
      (fun a b => ¬(a.product_id = b.product_id ∧
        a.category_id = b.category_id)) [(⟨1, 1⟩ : LinkRow)] ∧
    (∀ s xid L, productsInSubtree s [(⟨1, 1⟩ : LinkRow)] xid = .ok L →
       L.Nodup) :=
  c10_sku_and_links [⟨1, 1, "SKU-1"⟩]
    (ProductReach.insert [] ⟨1, 1, "SKU-1"⟩ [⟨1, 1, "SKU-1"⟩]
      ProductReach.init rfl)
    [⟨1, 1⟩]
    (LinkReach.insert [] ⟨1, 1⟩ [⟨1, 1⟩] LinkReach.init rfl)

end Catalog
